import Mathlib

/-!
# Sudoku puzzle engine (`SudokuBoard`)

A shallow embedding of `src/src/SudokuBoard.cpp` and the properties of it that
are proved here.

* The two member arrays `mBoard` (`int[9][9]`) and `mOriginalCells`
  (`bool[9][9]`) are total functions on `Fin 9 × Fin 9`; cell values are
  mathematical integers (the code only compares and copies them).
* Arguments declared `int` in the source stay `Int`, so that out-of-range
  coordinates and values are real inputs of the embedded functions.
* `std::mt19937`, `std::uniform_int_distribution` and `std::shuffle` are library
  code.  The generator state is the sequence of raw numbers it produces together
  with the number of them already used; a bounded draw reduces the next raw
  number modulo the size of the range, and a shuffle is the insertion form of
  the Fisher-Yates shuffle.  Every ordering of the shuffled list is the result
  in some generator state (`shuffle_reaches`), so a statement about every
  generator state covers every outcome of the library shuffle.
* The constants `BOARD_SIZE = 9`, `BOX_SIZE = 3` and `EMPTY_CELL = 0` of
  `SudokuBoard.h` are written as literals.
* `SolveBoard` is recursive; its embedding carries the remaining recursion
  depth as fuel and returns `none` when the fuel runs out.
-/

namespace Sudoku

/-! ## Data model -/

/-- The type of `mBoard` and of the scratch copies handed to `SolveBoard`. -/
abbrev Board := Fin 9 → Fin 9 → Int

/-- The type of `mOriginalCells`. -/
abbrev Mask := Fin 9 → Fin 9 → Bool

/-- The assignment `board[row][col] = value`. -/
def setCell (board : Board) (row col : Fin 9) (value : Int) : Board :=
  fun r c => if r = row ∧ c = col then value else board r c

/-- The assignment `mOriginalCells[row][col] = flag`. -/
def setFlag (mask : Mask) (row col : Fin 9) (flag : Bool) : Mask :=
  fun r c => if r = row ∧ c = col then flag else mask r c

/-- The three row (or column) indices `start, start + 1, start + 2` of the box
whose index is `box`, with `start = box * BOX_SIZE`. -/
def boxIndex (box : Fin 3) (i : Fin 3) : Fin 9 :=
  ⟨box.val * 3 + i.val, by omega⟩

/-- The box index `row / BOX_SIZE` of a row or column; then
`boxIndex (boxOf row) 0` is `boxRowStart = (row / BOX_SIZE) * BOX_SIZE`. -/
def boxOf (row : Fin 9) : Fin 3 :=
  ⟨row.val / 3, by omega⟩

/-- All 81 coordinates in row-major order: the order of the nested
`for row ... for col ...` loops. -/
def allCells : List (Fin 9 × Fin 9) :=
  (List.finRange 9).flatMap fun r => (List.finRange 9).map fun c => (r, c)

/-- The nine cells of box `(boxRow, boxCol)` in the order of the nested box loops. -/
def boxCells (boxRow boxCol : Fin 3) : List (Fin 9 × Fin 9) :=
  (List.finRange 3).flatMap fun i =>
    (List.finRange 3).map fun j => (boxIndex boxRow i, boxIndex boxCol j)

/-! ## Solved-state detection -/

/-- Embedding of `SudokuBoard::IsValidInRow`: count the cells of the row equal to `value`. -/
def IsValidInRow (mBoard : Board) (row : Fin 9) (value : Int) : Bool :=
  (List.finRange 9).countP (fun col => mBoard row col == value) == 1

/-- Embedding of `SudokuBoard::IsValidInColumn`. -/
def IsValidInColumn (mBoard : Board) (col : Fin 9) (value : Int) : Bool :=
  (List.finRange 9).countP (fun row => mBoard row col == value) == 1

/-- Embedding of `SudokuBoard::IsValidInBox`. -/
def IsValidInBox (mBoard : Board) (boxRow boxCol : Fin 3) (value : Int) : Bool :=
  (boxCells boxRow boxCol).countP (fun p => mBoard p.1 p.2 == value) == 1

/-- The values `1, ..., BOARD_SIZE` of the loops `for (num = 1; num <= BOARD_SIZE; ++num)`. -/
def digits : List Int := [1, 2, 3, 4, 5, 6, 7, 8, 9]

/-- Embedding of `SudokuBoard::IsSolved`. -/
def IsSolved (mBoard : Board) : Bool :=
  if allCells.any (fun p => mBoard p.1 p.2 == 0) then false
  else if (List.finRange 9).any (fun i =>
      digits.any (fun num => !IsValidInRow mBoard i num) ||
      digits.any (fun num => !IsValidInColumn mBoard i num)) then false
  else if (List.finRange 3).any (fun boxRow => (List.finRange 3).any (fun boxCol =>
      digits.any (fun num => !IsValidInBox mBoard boxRow boxCol num))) then false
  else true

/-- A board given by its nine rows. -/
def ofRows (rows : List (List Int)) : Board :=
  fun r c => (rows.getD r.val []).getD c.val 0

/-- A completed grid whose row 0 is `5 3 4 6 7 8 9 1 2`. -/
def standardSolution : Board :=
  ofRows [[5, 3, 4, 6, 7, 8, 9, 1, 2],
          [6, 7, 2, 1, 9, 5, 3, 4, 8],
          [1, 9, 8, 3, 4, 2, 5, 6, 7],
          [8, 5, 9, 7, 6, 1, 4, 2, 3],
          [4, 2, 6, 8, 5, 3, 7, 9, 1],
          [7, 1, 3, 9, 2, 4, 8, 5, 6],
          [9, 6, 1, 5, 3, 7, 2, 8, 4],
          [2, 8, 7, 4, 1, 9, 6, 3, 5],
          [3, 4, 5, 2, 8, 6, 1, 7, 9]]

/-! ## The random generator -/

/-- State of `mRng`: the sequence of raw numbers of the generator and how many of them
have been used. -/
structure Rng where
  raw : Nat → Nat
  pos : Nat

/-- The generator after one raw number has been used. -/
def Rng.advance (g : Rng) : Rng :=
  { g with pos := g.pos + 1 }

/-- One draw of `std::uniform_int_distribution<int>(0, n - 1)`: the next raw number
reduced into the range, and the generator advanced. -/
def Rng.draw (g : Rng) (n : Nat) (h : 0 < n) : Fin n × Rng :=
  (⟨g.raw g.pos % n, Nat.mod_lt _ h⟩, g.advance)

/-- Embedding of `std::shuffle(first, last, mRng)`: every element is inserted at a drawn position
among the elements shuffled before it. -/
def shuffle {α : Type} : List α → Rng → List α × Rng
  | [], g => ([], g)
  | x :: xs, g =>
    let res := shuffle xs g
    let d := res.2.draw (res.1.length + 1) (Nat.succ_pos _)
    (res.1.insertIdx d.1.val x, d.2)

/-! ## The engine state and its queries -/

/-- The data members of `class SudokuBoard`. -/
structure SudokuBoard where
  mBoard : Board
  mOriginalCells : Mask
  mRng : Rng

/-- Embedding of `SudokuBoard::SudokuBoard()`: empty grid, nothing fixed, generator seeded from
`std::random_device`. -/
def SudokuBoard.new (seed : Rng) : SudokuBoard :=
  { mBoard := fun _ _ => 0, mOriginalCells := fun _ _ => false, mRng := seed }

/-- Embedding of `SudokuBoard::GetCell`. -/
def GetCell (s : SudokuBoard) (row col : Int) : Int :=
  if h : row ≥ 0 ∧ row < 9 ∧ col ≥ 0 ∧ col < 9 then
    s.mBoard ⟨row.toNat, by omega⟩ ⟨col.toNat, by omega⟩
  else 0

/-- Embedding of `SudokuBoard::IsOriginalCell`. -/
def IsOriginalCell (s : SudokuBoard) (row col : Int) : Bool :=
  if h : row ≥ 0 ∧ row < 9 ∧ col ≥ 0 ∧ col < 9 then
    s.mOriginalCells ⟨row.toNat, by omega⟩ ⟨col.toNat, by omega⟩
  else false

/-- The loop `for c: if (board[row][c] == value) ...`: some cell of the row holds `value`. -/
def rowHolds (board : Board) (row : Fin 9) (value : Int) : Bool :=
  (List.finRange 9).any fun c => board row c == value

/-- The loop `for r: if (board[r][col] == value) ...`: some cell of the column holds `value`. -/
def colHolds (board : Board) (col : Fin 9) (value : Int) : Bool :=
  (List.finRange 9).any fun r => board r col == value

/-- The nested loop over the box that starts at `(row / 3) * 3`, `(col / 3) * 3`:
some cell of the box of `(row, col)` holds `value`. -/
def boxHolds (board : Board) (row col : Fin 9) (value : Int) : Bool :=
  (boxCells (boxOf row) (boxOf col)).any fun p => board p.1 p.2 == value

/-- Embedding of `SudokuBoard::IsValidMove`. -/
def IsValidMove (s : SudokuBoard) (row col value : Int) : Bool :=
  if h : row < 0 ∨ row ≥ 9 ∨ col < 0 ∨ col ≥ 9 ∨ value < 1 ∨ value > 9 then false
  else
    let r : Fin 9 := ⟨row.toNat, by omega⟩
    let c : Fin 9 := ⟨col.toNat, by omega⟩
    if s.mOriginalCells r c then false
    else if rowHolds s.mBoard r value then false
    else if colHolds s.mBoard c value then false
    else if boxHolds s.mBoard r c value then false
    else true

/-- Embedding of `SudokuBoard::SetCell`. -/
def SetCell (s : SudokuBoard) (row col value : Int) : SudokuBoard :=
  if h : row ≥ 0 ∧ row < 9 ∧ col ≥ 0 ∧ col < 9 ∧ value ≥ 1 ∧ value ≤ 9 then
    let r : Fin 9 := ⟨row.toNat, by omega⟩
    let c : Fin 9 := ⟨col.toNat, by omega⟩
    if !s.mOriginalCells r c then { s with mBoard := setCell s.mBoard r c value } else s
  else s

/-- Embedding of `SudokuBoard::ClearCell`. -/
def ClearCell (s : SudokuBoard) (row col : Int) : SudokuBoard :=
  if h : row ≥ 0 ∧ row < 9 ∧ col ≥ 0 ∧ col < 9 then
    let r : Fin 9 := ⟨row.toNat, by omega⟩
    let c : Fin 9 := ⟨col.toNat, by omega⟩
    if !s.mOriginalCells r c then { s with mBoard := setCell s.mBoard r c 0 } else s
  else s

/-- Embedding of `SudokuBoard::IsNumberValid`. -/
def IsNumberValid (s : SudokuBoard) (row col : Int) : Bool :=
  if h : row < 0 ∨ row ≥ 9 ∨ col < 0 ∨ col ≥ 9 then false
  else
    let r0 : Fin 9 := ⟨row.toNat, by omega⟩
    let c0 : Fin 9 := ⟨col.toNat, by omega⟩
    let value := s.mBoard r0 c0
    if value = 0 then true
    else if (List.finRange 9).any (fun c => c != c0 && s.mBoard r0 c == value) then false
    else if (List.finRange 9).any (fun r => r != r0 && s.mBoard r c0 == value) then false
    else if (boxCells (boxOf r0) (boxOf c0)).any
        (fun p => (p.1 != r0 || p.2 != c0) && s.mBoard p.1 p.2 == value) then false
    else true

/-! ## The backtracking solver -/

/-- The first loop of `SolveBoard`: the first empty cell in row-major order, if any. -/
def findEmpty (board : Board) : Option (Fin 9 × Fin 9) :=
  allCells.find? fun p => board p.1 p.2 == 0

/-- The three scans of `SolveBoard` that leave `isValid` true: `num` is in neither the
row, nor the column, nor the box of `(row, col)`. -/
def isValid (board : Board) (row col : Fin 9) (num : Int) : Bool :=
  !rowHolds board row num && !colHolds board col num && !boxHolds board row col num

/-- The loop `for (int num : numbers)` of `SolveBoard`, over the numbers still to try.
`solve` is the recursive call; the board and the generator are the ones it left. -/
def tryNumbers (solve : Board → Rng → Option (Bool × Board × Rng)) (row col : Fin 9) :
    List Int → Board → Rng → Option (Bool × Board × Rng)
  | [], board, g => some (false, board, g)
  | num :: rest, board, g =>
    if isValid board row col num then
      match solve (setCell board row col num) g with
      | none => none
      | some (true, board1, g1) => some (true, board1, g1)
      | some (false, board1, g1) => tryNumbers solve row col rest (setCell board1 row col 0) g1
    else tryNumbers solve row col rest board g

/-- Embedding of `SudokuBoard::SolveBoard` with a bound on the recursion depth.  The result is the
returned flag, the board as the call leaves it, and the generator as the call leaves it;
`none` stands for a recursion deeper than `fuel`. -/
def SolveBoardAux : Nat → Board → Rng → Option (Bool × Board × Rng)
  | 0, _, _ => none
  | fuel + 1, board, g =>
    match findEmpty board with
    | none => some (true, board, g)
    | some (row, col) =>
      let numbers := shuffle digits g
      tryNumbers (SolveBoardAux fuel) row col numbers.1 board numbers.2

/-- Embedding of `SudokuBoard::SolveBoard`: 82 nested calls are allowed, one more than
there are cells. -/
def SolveBoard (board : Board) (g : Rng) : Option (Bool × Board × Rng) :=
  SolveBoardAux 82 board g

/-- Number of empty cells of a board. -/
def countEmpty (board : Board) : Nat :=
  allCells.countP fun p => board p.1 p.2 == 0

/-! ## Hints and puzzle generation -/

/-- The three reference parameters `row`, `col`, `value` of `GetHint`. -/
structure HintOut where
  row : Int
  col : Int
  value : Int

/-- The vector `emptyCells` built by `GetHint`. -/
def emptyCells (board : Board) : List (Fin 9 × Fin 9) :=
  allCells.filter fun p => board p.1 p.2 == 0

/-- Embedding of `SudokuBoard::GetHint`: the returned flag, the reference parameters and the engine
state after the call. -/
def GetHint (s : SudokuBoard) (out : HintOut) : Option (Bool × HintOut × SudokuBoard) :=
  if h : (emptyCells s.mBoard).length = 0 then some (false, out, s)
  else
    let d := s.mRng.draw (emptyCells s.mBoard).length (Nat.pos_of_ne_zero h)
    let cell := (emptyCells s.mBoard).get d.1
    let out1 : HintOut := { out with row := (cell.1.val : Int), col := (cell.2.val : Int) }
    match SolveBoard s.mBoard d.2 with
    | none => none
    | some (true, boardCopy, g) =>
      some (true, { out1 with value := boardCopy cell.1 cell.2 }, { s with mRng := g })
    | some (false, _, g) => some (false, out1, { s with mRng := g })

/-- Embedding of `SudokuBoard::GenerateCompleteSolution`. -/
def GenerateCompleteSolution (s : SudokuBoard) : Option SudokuBoard :=
  match SolveBoard (fun _ _ => 0) s.mRng with
  | none => none
  | some (_, board, g) => some { s with mBoard := board, mRng := g }

/-- The `switch (difficulty)` of `RemoveCells`. -/
def cellsToRemove (difficulty : Int) : Nat :=
  if difficulty = 1 then 40
  else if difficulty = 2 then 50
  else if difficulty = 3 then 60
  else 50

/-- One round of the removal loop of `RemoveCells`, for the cell `cells[i]`. -/
def removeStep (s : SudokuBoard) (cell : Fin 9 × Fin 9) : Option SudokuBoard :=
  let temp := s.mBoard cell.1 cell.2
  let board1 := setCell s.mBoard cell.1 cell.2 0
  let mask1 := setFlag s.mOriginalCells cell.1 cell.2 false
  match SolveBoard board1 s.mRng with
  | none => none
  | some (true, _, g) => some { mBoard := board1, mOriginalCells := mask1, mRng := g }
  | some (false, _, g) =>
    some { mBoard := setCell board1 cell.1 cell.2 temp,
           mOriginalCells := setFlag mask1 cell.1 cell.2 true, mRng := g }

/-- Embedding of `SudokuBoard::RemoveCells`: the loop runs over `cells[i]` for
`i < cellsToRemove && i < cells.size()`. -/
def RemoveCells (s : SudokuBoard) (difficulty : Int) : Option SudokuBoard :=
  let cells := shuffle allCells s.mRng
  ((cells.1).take (cellsToRemove difficulty)).foldlM removeStep
    { s with mOriginalCells := fun _ _ => true, mRng := cells.2 }

/-- Embedding of `SudokuBoard::NewGame`. -/
def NewGame (s : SudokuBoard) (difficulty : Int) : Option SudokuBoard :=
  match GenerateCompleteSolution
      { s with mBoard := fun _ _ => 0, mOriginalCells := fun _ _ => false } with
  | none => none
  | some s1 => RemoveCells s1 difficulty

/-! ## Sample engine states -/

/-- A generator state. -/
def sampleRng : Rng :=
  { raw := fun i => 7 * i + 3, pos := 0 }

/-- The engine holding the solved grid `standardSolution`, every cell fixed. -/
def solvedEngine : SudokuBoard :=
  { mBoard := standardSolution, mOriginalCells := fun _ _ => true, mRng := sampleRng }

/-! ## Notions of the specification -/

/-- Two cells lie in a common row, column or 3x3 box. -/
def SameUnit (r c r' c' : Fin 9) : Prop :=
  r = r' ∨ c = c' ∨ (boxOf r = boxOf r' ∧ boxOf c = boxOf c')

/-- Every cell is filled and every row, column and box holds each digit of `1..9`
exactly once. -/
def SolvedGrid (b : Board) : Prop :=
  (∀ r c, b r c ≠ 0) ∧
  (∀ r : Fin 9, ∀ d : Int, 1 ≤ d → d ≤ 9 → ∃! c : Fin 9, b r c = d) ∧
  (∀ c : Fin 9, ∀ d : Int, 1 ≤ d → d ≤ 9 → ∃! r : Fin 9, b r c = d) ∧
  (∀ boxRow boxCol : Fin 3, ∀ d : Int, 1 ≤ d → d ≤ 9 →
    ∃! p : Fin 9 × Fin 9, (boxOf p.1 = boxRow ∧ boxOf p.2 = boxCol) ∧ b p.1 p.2 = d)

/-- The board `full` fills the empty cells of `board` with digits of `1..9` such that no
filled-in digit equals another cell of its row, column or box, and keeps the other cells. -/
def IsCompletion (board full : Board) : Prop :=
  ∀ r c, (board r c ≠ 0 → full r c = board r c) ∧
    (board r c = 0 → 1 ≤ full r c ∧ full r c ≤ 9 ∧
      ∀ r' c', (r', c') ≠ (r, c) → SameUnit r c r' c' → full r' c' ≠ full r c)

/-- Number of fixed (pre-filled) cells of a mask. -/
def countFixed (mask : Mask) : Nat :=
  allCells.countP fun p => mask p.1 p.2

/-- The engine states reachable from construction by calls of `NewGame`, `SetCell`,
`ClearCell` and `GetHint` with arbitrary arguments, in arbitrary generator states. -/
inductive Reachable : SudokuBoard → Prop
  | construct (seed : Rng) : Reachable (SudokuBoard.new seed)
  | newGame {s s1 : SudokuBoard} (difficulty : Int) :
      Reachable s → NewGame s difficulty = some s1 → Reachable s1
  | setCell {s : SudokuBoard} (row col value : Int) :
      Reachable s → Reachable (SetCell s row col value)
  | clearCell {s : SudokuBoard} (row col : Int) :
      Reachable s → Reachable (ClearCell s row col)
  | getHint {s s1 : SudokuBoard} (out out1 : HintOut) (ret : Bool) :
      Reachable s → GetHint s out = some (ret, out1, s1) → Reachable s1

/-- An engine whose grid holds a single digit, 5 at cell (0,0), with nothing fixed. -/
def singleFive : SudokuBoard :=
  { mBoard := setCell (fun _ _ => 0) 0 0 5, mOriginalCells := fun _ _ => false,
    mRng := sampleRng }

/-! ## Lists of cells and counting -/

theorem countP_eq_one_iff {α : Type} (p : α → Bool) :
    ∀ l : List α, l.Nodup →
      (l.countP p = 1 ↔ ∃ x, x ∈ l ∧ p x = true ∧ ∀ y ∈ l, p y = true → y = x)
  | [], _ => by simp
  | a :: l, hl => by
    have hnd := List.nodup_cons.mp hl
    have ih := countP_eq_one_iff p l hnd.2
    by_cases hpa : p a = true
    · rw [List.countP_cons_of_pos _ _ hpa]
      constructor
      · intro h
        have h0 : l.countP p = 0 := by omega
        rw [List.countP_eq_zero] at h0
        refine ⟨a, List.mem_cons_self _ _, hpa, ?_⟩
        intro y hy hpy
        rcases List.mem_cons.mp hy with rfl | hyl
        · rfl
        · exact absurd hpy (h0 y hyl)
      · rintro ⟨x, hx, _, huniq⟩
        have h0 : l.countP p = 0 := by
          rw [List.countP_eq_zero]
          intro y hyl hpy
          have hya : y = a := by
            rw [huniq y (List.mem_cons_of_mem _ hyl) hpy,
              huniq a (List.mem_cons_self _ _) hpa]
          exact hnd.1 (hya ▸ hyl)
        omega
    · rw [List.countP_cons_of_neg _ _ hpa, ih]
      constructor
      · rintro ⟨x, hx, hpx, huniq⟩
        refine ⟨x, List.mem_cons_of_mem _ hx, hpx, ?_⟩
        intro y hy hpy
        rcases List.mem_cons.mp hy with rfl | hyl
        · exact absurd hpy hpa
        · exact huniq y hyl hpy
      · rintro ⟨x, hx, hpx, huniq⟩
        rcases List.mem_cons.mp hx with rfl | hxl
        · exact absurd hpx hpa
        · exact ⟨x, hxl, hpx, fun y hy hpy => huniq y (List.mem_cons_of_mem _ hy) hpy⟩

theorem mem_allCells (p : Fin 9 × Fin 9) : p ∈ allCells := by
  obtain ⟨r, c⟩ := p
  simp only [allCells, List.mem_flatMap, List.mem_map]
  exact ⟨r, List.mem_finRange r, c, List.mem_finRange c, rfl⟩

theorem nodup_allCells : allCells.Nodup := by decide

theorem mem_boxCells : ∀ (boxRow boxCol : Fin 3) (p : Fin 9 × Fin 9),
    p ∈ boxCells boxRow boxCol ↔ boxOf p.1 = boxRow ∧ boxOf p.2 = boxCol := by
  decide

theorem nodup_boxCells : ∀ boxRow boxCol : Fin 3, (boxCells boxRow boxCol).Nodup := by
  decide

theorem mem_digits (d : Int) : d ∈ digits ↔ 1 ≤ d ∧ d ≤ 9 := by
  simp only [digits, List.mem_cons, List.mem_singleton, List.mem_nil_iff, or_false]
  omega

/-- Nine cells that hold every digit of `1..9` hold nothing else. -/
theorem range_of_all_digits (g : Fin 9 → Int)
    (h : ∀ d : Int, 1 ≤ d → d ≤ 9 → ∃ c, g c = d) (c : Fin 9) : 1 ≤ g c ∧ g c ≤ 9 := by
  have hk : ∀ k : Fin 9, ∃ c, g c = (k.val : Int) + 1 := fun k =>
    h _ (by omega) (by have := k.isLt; omega)
  choose f hf using hk
  have hinj : Function.Injective f := by
    intro a b hab
    have h1 := hf a
    have h2 := hf b
    rw [hab] at h1
    apply Fin.ext
    have : (a.val : Int) + 1 = (b.val : Int) + 1 := by rw [← h1, ← h2]
    omega
  obtain ⟨k, hk⟩ := (Finite.injective_iff_surjective.mp hinj) c
  have := hf k
  rw [hk] at this
  have := k.isLt
  omega

/-- Nine pairwise different cells with values in `1..9` hold every digit. -/
theorem all_digits_of_injective (g : Fin 9 → Int) (hr : ∀ c, 1 ≤ g c ∧ g c ≤ 9)
    (hinj : ∀ c c', g c = g c' → c = c') (d : Int) (h1 : 1 ≤ d) (h9 : d ≤ 9) :
    ∃ c, g c = d := by
  let f : Fin 9 → Fin 9 := fun c => ⟨(g c - 1).toNat, by have := hr c; omega⟩
  have hf : Function.Injective f := by
    intro a b hab
    apply hinj
    have := congrArg Fin.val hab
    simp only [f] at this
    have := hr a
    have := hr b
    omega
  obtain ⟨c, hc⟩ := (Finite.injective_iff_surjective.mp hf) ⟨(d - 1).toNat, by omega⟩
  refine ⟨c, ?_⟩
  have := congrArg Fin.val hc
  simp only [f] at this
  have := hr c
  omega

/-! ## `IsSolved` and the solved grid -/

theorem IsValidInRow_iff (b : Board) (r : Fin 9) (d : Int) :
    IsValidInRow b r d = true ↔ ∃! c : Fin 9, b r c = d := by
  unfold IsValidInRow
  rw [beq_iff_eq, countP_eq_one_iff _ _ (List.nodup_finRange 9)]
  constructor
  · rintro ⟨x, _, hx, huniq⟩
    exact ⟨x, by simpa using hx, fun y hy => huniq y (List.mem_finRange y) (by simpa using hy)⟩
  · rintro ⟨x, hx, huniq⟩
    exact ⟨x, List.mem_finRange x, by simpa using hx, fun y _ hy => huniq y (by simpa using hy)⟩

theorem IsValidInColumn_iff (b : Board) (c : Fin 9) (d : Int) :
    IsValidInColumn b c d = true ↔ ∃! r : Fin 9, b r c = d := by
  unfold IsValidInColumn
  rw [beq_iff_eq, countP_eq_one_iff _ _ (List.nodup_finRange 9)]
  constructor
  · rintro ⟨x, _, hx, huniq⟩
    exact ⟨x, by simpa using hx, fun y hy => huniq y (List.mem_finRange y) (by simpa using hy)⟩
  · rintro ⟨x, hx, huniq⟩
    exact ⟨x, List.mem_finRange x, by simpa using hx, fun y _ hy => huniq y (by simpa using hy)⟩

theorem IsValidInBox_iff (b : Board) (boxRow boxCol : Fin 3) (d : Int) :
    IsValidInBox b boxRow boxCol d = true ↔
      ∃! p : Fin 9 × Fin 9, (boxOf p.1 = boxRow ∧ boxOf p.2 = boxCol) ∧ b p.1 p.2 = d := by
  unfold IsValidInBox
  rw [beq_iff_eq, countP_eq_one_iff _ _ (nodup_boxCells boxRow boxCol)]
  constructor
  · rintro ⟨x, hmem, hx, huniq⟩
    refine ⟨x, ⟨(mem_boxCells _ _ _).mp hmem, by simpa using hx⟩, ?_⟩
    rintro y ⟨hy1, hy2⟩
    exact huniq y ((mem_boxCells _ _ _).mpr hy1) (by simpa using hy2)
  · rintro ⟨x, ⟨hx1, hx2⟩, huniq⟩
    refine ⟨x, (mem_boxCells _ _ _).mpr hx1, by simpa using hx2, ?_⟩
    intro y hy1 hy2
    exact huniq y ⟨(mem_boxCells _ _ _).mp hy1, by simpa using hy2⟩

theorem IsSolved_iff (b : Board) : IsSolved b = true ↔ SolvedGrid b := by
  unfold IsSolved SolvedGrid
  simp only [← IsValidInRow_iff, ← IsValidInColumn_iff, ← IsValidInBox_iff, ← mem_digits]
  constructor
  · intro h
    split at h
    · exact absurd h (by simp)
    rename_i h1
    split at h
    · exact absurd h (by simp)
    rename_i h2
    split at h
    · exact absurd h (by simp)
    rename_i h3
    simp only [List.any_eq_true, not_exists, not_and, Bool.or_eq_true, Bool.not_eq_true,
      Bool.not_eq_eq_eq_not, Bool.not_true, Bool.not_eq_false, not_or, beq_iff_eq] at h1 h2 h3
    refine ⟨fun r c => h1 (r, c) (mem_allCells _), ?_, ?_, ?_⟩
    · intro r d hd1 hd9
      exact (h2 r (List.mem_finRange r)).1 d ((mem_digits d).mpr ⟨hd1, hd9⟩)
    · intro c d hd1 hd9
      exact (h2 c (List.mem_finRange c)).2 d ((mem_digits d).mpr ⟨hd1, hd9⟩)
    · intro br bc d hd1 hd9
      exact h3 br (List.mem_finRange br) bc (List.mem_finRange bc) d
        ((mem_digits d).mpr ⟨hd1, hd9⟩)
  · rintro ⟨h1, h2, h3, h4⟩
    have e1 : (allCells.any fun p => b p.1 p.2 == 0) = false := by
      rw [List.any_eq_false]
      intro p _
      simpa using h1 p.1 p.2
    have e2 : ((List.finRange 9).any fun i =>
        digits.any (fun num => !IsValidInRow b i num) ||
        digits.any (fun num => !IsValidInColumn b i num)) = false := by
      rw [List.any_eq_false]
      intro i _
      simp only [Bool.or_eq_true, List.any_eq_true, not_or, not_exists, not_and,
        Bool.not_eq_true, Bool.not_eq_eq_eq_not, Bool.not_true, Bool.not_eq_false,
        Bool.not_false]
      exact ⟨fun d hd => h2 i d ((mem_digits d).mp hd).1 ((mem_digits d).mp hd).2,
        fun d hd => h3 i d ((mem_digits d).mp hd).1 ((mem_digits d).mp hd).2⟩
    have e3 : ((List.finRange 3).any fun boxRow => (List.finRange 3).any fun boxCol =>
        digits.any fun num => !IsValidInBox b boxRow boxCol num) = false := by
      rw [List.any_eq_false]
      intro br _
      rw [List.any_eq_true]
      rintro ⟨bc, _, hbc⟩
      rw [List.any_eq_true] at hbc
      obtain ⟨d, hd, hd2⟩ := hbc
      have := h4 br bc d ((mem_digits d).mp hd).1 ((mem_digits d).mp hd).2
      simp [this] at hd2
    simp [e1, e2, e3]

theorem SolvedGrid.range {b : Board} (h : SolvedGrid b) (r c : Fin 9) :
    1 ≤ b r c ∧ b r c ≤ 9 :=
  range_of_all_digits (fun c => b r c) (fun d h1 h9 => (h.2.1 r d h1 h9).exists) c

theorem not_solved_of_change {b : Board} (h : SolvedGrid b) (r c : Fin 9) (v : Int)
    (hv : v ≠ b r c) : ¬ SolvedGrid (setCell b r c v) := by
  intro h'
  obtain ⟨h1, h9⟩ := h.range r c
  obtain ⟨c', hc', _⟩ := h'.2.1 r (b r c) h1 h9
  by_cases hcc : c' = c
  · subst hcc
    simp [setCell] at hc'
    exact hv hc'
  · have hb : b r c' = b r c := by simpa [setCell, hcc] using hc'
    exact hcc ((h.2.1 r (b r c) h1 h9).unique hb rfl)

/-! ## Scans of a row, a column and a box -/

theorem rowHolds_iff (b : Board) (r : Fin 9) (v : Int) :
    rowHolds b r v = true ↔ ∃ c, b r c = v := by
  simp [rowHolds, List.mem_finRange]

theorem colHolds_iff (b : Board) (c : Fin 9) (v : Int) :
    colHolds b c v = true ↔ ∃ r, b r c = v := by
  simp [colHolds, List.mem_finRange]

theorem boxHolds_iff (b : Board) (r c : Fin 9) (v : Int) :
    boxHolds b r c v = true ↔
      ∃ r' c', boxOf r' = boxOf r ∧ boxOf c' = boxOf c ∧ b r' c' = v := by
  simp only [boxHolds, List.any_eq_true, mem_boxCells, beq_iff_eq, Prod.exists]
  constructor
  · rintro ⟨r', c', ⟨h1, h2⟩, h3⟩
    exact ⟨r', c', h1, h2, h3⟩
  · rintro ⟨r', c', h1, h2, h3⟩
    exact ⟨r', c', ⟨h1, h2⟩, h3⟩

theorem isValid_iff (b : Board) (r c : Fin 9) (v : Int) :
    isValid b r c v = true ↔
      ∀ r' c', SameUnit r c r' c' → b r' c' ≠ v := by
  have hr := rowHolds_iff b r v
  have hc := colHolds_iff b c v
  have hb := boxHolds_iff b r c v
  simp only [isValid, Bool.and_eq_true, Bool.not_eq_true', ← Bool.not_eq_true, hr, hc, hb]
  constructor
  · rintro ⟨⟨h1, h2⟩, h3⟩ r' c' hu hv
    rcases hu with rfl | rfl | ⟨e1, e2⟩
    · exact h1 ⟨c', hv⟩
    · exact h2 ⟨r', hv⟩
    · exact h3 ⟨r', c', e1.symm, e2.symm, hv⟩
  · intro h
    refine ⟨⟨?_, ?_⟩, ?_⟩
    · rintro ⟨c', hv⟩
      exact h r c' (Or.inl rfl) hv
    · rintro ⟨r', hv⟩
      exact h r' c (Or.inr (Or.inl rfl)) hv
    · rintro ⟨r', c', e1, e2, hv⟩
      exact h r' c' (Or.inr (Or.inr ⟨e1.symm, e2.symm⟩)) hv

theorem IsValidMove_coe (s : SudokuBoard) (r c : Fin 9) (value : Int) :
    IsValidMove s (r.val : Int) (c.val : Int) value =
      (decide (1 ≤ value ∧ value ≤ 9) && !s.mOriginalCells r c &&
        isValid s.mBoard r c value) := by
  have hr := r.isLt
  have hc := c.isLt
  unfold IsValidMove isValid
  by_cases hv : 1 ≤ value ∧ value ≤ 9
  · have hcond : ¬ ((r.val : Int) < 0 ∨ (r.val : Int) ≥ 9 ∨ (c.val : Int) < 0 ∨
        (c.val : Int) ≥ 9 ∨ value < 1 ∨ value > 9) := by omega
    rw [dif_neg hcond]
    simp only [Int.toNat_ofNat, Fin.eta, hv, and_self, decide_True, Bool.true_and]
    by_cases h1 : s.mOriginalCells r c = true <;>
      by_cases h2 : rowHolds s.mBoard r value = true <;>
      by_cases h3 : colHolds s.mBoard c value = true <;>
      by_cases h4 : boxHolds s.mBoard r c value = true <;>
      simp [h1, h2, h3, h4]
  · have hcond : ((r.val : Int) < 0 ∨ (r.val : Int) ≥ 9 ∨ (c.val : Int) < 0 ∨
        (c.val : Int) ≥ 9 ∨ value < 1 ∨ value > 9) := by omega
    rw [dif_pos hcond]
    simp [hv]

theorem IsValidMove_out_of_range (s : SudokuBoard) (row col value : Int)
    (h : ¬ (0 ≤ row ∧ row < 9 ∧ 0 ≤ col ∧ col < 9)) : IsValidMove s row col value = false := by
  unfold IsValidMove
  rw [dif_pos (by omega)]

/-- Coordinates in range are the coordinates of a cell. -/
theorem exists_index (row : Int) (h0 : 0 ≤ row) (h9 : row < 9) :
    ∃ r : Fin 9, (r.val : Int) = row :=
  ⟨⟨row.toNat, by omega⟩, by simp only []; omega⟩

/-! ## Empty cells -/

theorem findEmpty_none {b : Board} (h : findEmpty b = none) (r c : Fin 9) : b r c ≠ 0 := by
  unfold findEmpty at h
  rw [List.find?_eq_none] at h
  simpa using h (r, c) (mem_allCells _)

theorem findEmpty_some {b : Board} {r c : Fin 9} (h : findEmpty b = some (r, c)) :
    b r c = 0 := by
  unfold findEmpty at h
  simpa using List.find?_some h

/-- Switching one element of a duplicate-free list from counted to not counted lowers the
count by one. -/
theorem countP_remove_one {α : Type} (p q : α → Bool) (a : α) (hp : p a = true)
    (hq : q a = false) (hpq : ∀ x, x ≠ a → q x = p x) :
    ∀ l : List α, l.Nodup → a ∈ l → l.countP q + 1 = l.countP p
  | [], _, h => by simp at h
  | x :: l, hl, h => by
    have hnd := List.nodup_cons.mp hl
    by_cases hxa : x = a
    · subst hxa
      have hsame : l.countP q = l.countP p := by
        apply List.countP_congr
        intro y hy
        have hyx : y ≠ x := fun e => hnd.1 (e ▸ hy)
        rw [hpq y hyx]
      rw [List.countP_cons_of_pos _ _ hp, List.countP_cons_of_neg _ _ (by simp [hq]), hsame]
    · have hal : a ∈ l := by
        rcases List.mem_cons.mp h with e | e
        · exact absurd e.symm hxa
        · exact e
      have ih := countP_remove_one p q a hp hq hpq l hnd.2 hal
      simp only [List.countP_cons, hpq x hxa]
      omega

theorem countEmpty_setCell (b : Board) (r c : Fin 9) (v : Int) (h0 : b r c = 0)
    (hv : v ≠ 0) : countEmpty (setCell b r c v) + 1 = countEmpty b := by
  unfold countEmpty
  apply countP_remove_one _ _ (r, c) _ _ _ _ nodup_allCells (mem_allCells _)
  · simpa using h0
  · simp [setCell, hv]
  · rintro ⟨r', c'⟩ hne
    have : ¬ (r' = r ∧ c' = c) := fun e => hne (by rw [e.1, e.2])
    simp [setCell, this]

theorem countEmpty_le (b : Board) : countEmpty b ≤ 81 := by
  unfold countEmpty
  have h81 : allCells.length = 81 := by decide
  have := List.countP_le_length (fun p : Fin 9 × Fin 9 => b p.1 p.2 == 0) (l := allCells)
  omega

theorem setCell_restore (b : Board) (r c : Fin 9) (v : Int) (h0 : b r c = 0) :
    setCell (setCell b r c v) r c 0 = b := by
  funext r' c'
  by_cases h : r' = r ∧ c' = c
  · simp [setCell, h, h0]
  · simp [setCell, h]

/-! ## The shuffle -/

theorem shuffle_perm {α : Type} : ∀ (l : List α) (g : Rng), (shuffle l g).1.Perm l
  | [], _ => by simp [shuffle]
  | x :: xs, g => by
    simp only [shuffle]
    have ih := shuffle_perm xs g
    have hk : ((shuffle xs g).2.draw ((shuffle xs g).1.length + 1) (Nat.succ_pos _)).1.val ≤
        (shuffle xs g).1.length := Nat.lt_succ_iff.mp (Fin.isLt _)
    exact (List.perm_insertIdx x _ hk).trans (List.Perm.cons x ih)

theorem shuffle_snd {α : Type} : ∀ (l : List α) (g : Rng),
    (shuffle l g).2 = { raw := g.raw, pos := g.pos + l.length }
  | [], _ => rfl
  | x :: xs, g => by
    simp only [shuffle, Rng.draw, Rng.advance, shuffle_snd xs g, List.length_cons]
    rw [Nat.add_assoc]

/-- A shuffle of `l` reads the raw numbers at the next `l.length` positions only. -/
theorem shuffle_congr {α : Type} (pos : Nat) : ∀ (l : List α) (raw1 raw2 : Nat → Nat),
    (∀ i, pos ≤ i → i < pos + l.length → raw1 i = raw2 i) →
    (shuffle l { raw := raw1, pos := pos }).1 = (shuffle l { raw := raw2, pos := pos }).1
  | [], _, _, _ => rfl
  | x :: xs, raw1, raw2, h => by
    have ih := shuffle_congr pos xs raw1 raw2
      (fun i h1 h2 => h i h1 (by simp only [List.length_cons]; omega))
    have hraw : raw1 (pos + xs.length) = raw2 (pos + xs.length) :=
      h _ (by omega) (by simp only [List.length_cons]; omega)
    simp only [shuffle, Rng.draw, shuffle_snd, ih, hraw]

theorem exists_insertIdx_of_mem {α : Type} (x : α) : ∀ l : List α, x ∈ l →
    ∃ (k : Nat) (ys : List α), k ≤ ys.length ∧ ys.insertIdx k x = l
  | [], h => by simp at h
  | a :: t, h => by
    by_cases hax : x = a
    · exact ⟨0, t, Nat.zero_le _, by rw [hax, List.insertIdx_zero]⟩
    · have hxt : x ∈ t := by
        rcases List.mem_cons.mp h with e | e
        · exact absurd e hax
        · exact e
      obtain ⟨k, ys, hk, he⟩ := exists_insertIdx_of_mem x t hxt
      refine ⟨k + 1, a :: ys, by simp only [List.length_cons]; omega, ?_⟩
      rw [List.insertIdx_succ_cons, he]

/-- Every ordering of a list is the result of shuffling it in some generator state. -/
theorem shuffle_reaches {α : Type} (pos : Nat) : ∀ (l l' : List α), l'.Perm l →
    ∃ raw : Nat → Nat, (shuffle l { raw := raw, pos := pos }).1 = l'
  | [], l', h => ⟨fun _ => 0, by rw [List.Perm.eq_nil h]; rfl⟩
  | x :: xs, l', h => by
    have hx : x ∈ l' := h.mem_iff.mpr (List.mem_cons_self _ _)
    obtain ⟨k, ys, hk, he⟩ := exists_insertIdx_of_mem x l' hx
    have hys : ys.Perm xs := by
      have h1 : (x :: ys).Perm (x :: xs) := by
        rw [← he] at h
        exact (List.perm_insertIdx x ys hk).symm.trans h
      exact List.Perm.cons_inv h1
    obtain ⟨raw, hraw⟩ := shuffle_reaches pos xs ys hys
    refine ⟨Function.update raw (pos + xs.length) k, ?_⟩
    have hsame : (shuffle xs { raw := Function.update raw (pos + xs.length) k, pos := pos }).1
        = ys := by
      rw [← hraw]
      apply shuffle_congr
      intro i _ h2
      rw [Function.update_noteq (by omega)]
    have hlen : ys.length = xs.length := hys.length_eq
    simp only [shuffle, Rng.draw, shuffle_snd, hsame, Function.update_same]
    rw [← he, hlen, Nat.mod_eq_of_lt (by omega)]

theorem mem_shuffle_digits (g : Rng) (n : Int) :
    n ∈ (shuffle digits g).1 ↔ 1 ≤ n ∧ n ≤ 9 := by
  rw [(shuffle_perm digits g).mem_iff, mem_digits]

/-! ## Completions of a board -/

theorem SameUnit.symm {r c r' c' : Fin 9} (h : SameUnit r c r' c') : SameUnit r' c' r c := by
  rcases h with h | h | ⟨h1, h2⟩
  · exact Or.inl h.symm
  · exact Or.inr (Or.inl h.symm)
  · exact Or.inr (Or.inr ⟨h1.symm, h2.symm⟩)

theorem SameUnit.refl (r c : Fin 9) : SameUnit r c r c := Or.inl rfl

theorem IsCompletion.self {b : Board} (h : ∀ r c, b r c ≠ 0) : IsCompletion b b :=
  fun r c => ⟨fun _ => rfl, fun h0 => absurd h0 (h r c)⟩

/-- A completion of the board with a legal digit placed is a completion of the board. -/
theorem IsCompletion.of_placed {b full : Board} {row col : Fin 9} {num : Int}
    (h0 : b row col = 0) (h1 : 1 ≤ num) (h9 : num ≤ 9)
    (hvalid : isValid b row col num = true)
    (h : IsCompletion (setCell b row col num) full) : IsCompletion b full := by
  have hv := (isValid_iff b row col num).mp hvalid
  have hnum : full row col = num := by
    have := (h row col).1 (by simp [setCell]; omega)
    simpa [setCell] using this
  intro r c
  by_cases hrc : r = row ∧ c = col
  · obtain ⟨rfl, rfl⟩ := hrc
    refine ⟨fun hne => absurd h0 hne, fun _ => ⟨by omega, by omega, ?_⟩⟩
    intro r' c' hne hunit
    have hne' : ¬ (r' = r ∧ c' = c) := fun e => hne (by rw [e.1, e.2])
    by_cases hz : b r' c' = 0
    · have hz' : setCell b r c num r' c' = 0 := by simp [setCell, hne', hz]
      exact ((h r' c').2 hz').2.2 r c (fun e => hne e.symm) hunit.symm |>.symm
    · have hkeep : full r' c' = b r' c' := by
        have := (h r' c').1 (by simp [setCell, hne', hz])
        simpa [setCell, hne'] using this
      rw [hkeep, hnum]
      exact hv r' c' hunit
  · have hsame : setCell b row col num r c = b r c := by simp [setCell, hrc]
    have := h r c
    rw [hsame] at this
    exact this

/-- A completion of the board is a completion of the board with its own digit placed. -/
theorem IsCompletion.placed {b full : Board} {row col : Fin 9}
    (h : IsCompletion b full) : IsCompletion (setCell b row col (full row col)) full := by
  intro r c
  by_cases hrc : r = row ∧ c = col
  · obtain ⟨rfl, rfl⟩ := hrc
    by_cases hz : b r c = 0
    · have := ((h r c).2 hz)
      refine ⟨fun _ => by simp [setCell], fun h0 => ?_⟩
      simp [setCell] at h0
      omega
    · refine ⟨fun _ => by simp [setCell], fun h0 => ?_⟩
      simp only [setCell, and_self, if_true] at h0
      exact (h r c).2 (by rw [← (h r c).1 hz]; exact h0)
  · have hsame : setCell b row col (full row col) r c = b r c := by simp [setCell, hrc]
    rw [hsame]
    exact h r c

/-- The digit a completion puts into an empty cell passes the three scans. -/
theorem IsCompletion.isValid {b full : Board} {row col : Fin 9} (h0 : b row col = 0)
    (h : IsCompletion b full) : isValid b row col (full row col) = true := by
  rw [isValid_iff]
  intro r' c' hunit heq
  obtain ⟨h1, _, hpeers⟩ := (h row col).2 h0
  have hne : (r', c') ≠ (row, col) := by
    intro e
    have e1 : r' = row := congrArg Prod.fst e
    have e2 : c' = col := congrArg Prod.snd e
    rw [e1, e2, h0] at heq
    omega
  have hnz : b r' c' ≠ 0 := by omega
  have := hpeers r' c' hne hunit
  rw [(h r' c').1 hnz] at this
  exact this heq

/-! ## The solver: termination, soundness, completeness -/

theorem tryNumbers_spec (solve : Board → Rng → Option (Bool × Board × Rng)) (fuel : Nat)
    (hsolve : ∀ b g, countEmpty b < fuel → ∃ ok b' g', solve b g = some (ok, b', g') ∧
      (ok = true → IsCompletion b b') ∧
      (ok = false → b' = b ∧ ∀ full, ¬ IsCompletion b full))
    (row col : Fin 9) :
    ∀ (nums : List Int) (board : Board) (g : Rng), board row col = 0 →
      countEmpty board ≤ fuel → (∀ n ∈ nums, 1 ≤ n ∧ n ≤ 9) →
      ∃ ok b' g', tryNumbers solve row col nums board g = some (ok, b', g') ∧
        (ok = true → IsCompletion board b') ∧
        (ok = false → b' = board ∧ ∀ full, IsCompletion board full → full row col ∉ nums)
  | [], board, g, _, _, _ =>
    ⟨false, board, g, rfl, fun h => absurd h (by decide), fun _ => ⟨rfl, fun _ _ => by simp⟩⟩
  | num :: rest, board, g, h0, hcount, hnums => by
    have hnum := hnums num (List.mem_cons_self _ _)
    have hrest : ∀ n ∈ rest, 1 ≤ n ∧ n ≤ 9 := fun n hn => hnums n (List.mem_cons_of_mem _ hn)
    by_cases hv : isValid board row col num = true
    · have hlt : countEmpty (setCell board row col num) < fuel := by
        have := countEmpty_setCell board row col num h0 (by omega)
        omega
      obtain ⟨ok, b1, g1, he, hT, hF⟩ := hsolve (setCell board row col num) g hlt
      cases ok
      · obtain ⟨hb1, hno⟩ := hF rfl
        subst hb1
        obtain ⟨ok2, b2, g2, he2, hT2, hF2⟩ :=
          tryNumbers_spec solve fuel hsolve row col rest board g1 h0 hcount hrest
        refine ⟨ok2, b2, g2, ?_, hT2, fun h => ⟨(hF2 h).1, ?_⟩⟩
        · simp only [tryNumbers, hv, if_true, he, setCell_restore board row col num h0]
          exact he2
        · intro full hfull hmem
          rcases List.mem_cons.mp hmem with e | e
          · apply hno full
            rw [← e]
            exact hfull.placed
          · exact (hF2 h).2 full hfull e
      · refine ⟨true, b1, g1, ?_, fun _ => IsCompletion.of_placed h0 hnum.1 hnum.2 hv (hT rfl),
          fun h => absurd h (by decide)⟩
        simp only [tryNumbers, hv, if_true, he]
    · obtain ⟨ok2, b2, g2, he2, hT2, hF2⟩ :=
        tryNumbers_spec solve fuel hsolve row col rest board g h0 hcount hrest
      refine ⟨ok2, b2, g2, ?_, hT2, fun h => ⟨(hF2 h).1, ?_⟩⟩
      · simp only [tryNumbers, hv]
        exact he2
      · intro full hfull hmem
        rcases List.mem_cons.mp hmem with e | e
        · rw [← e] at hv
          exact hv (hfull.isValid h0)
        · exact (hF2 h).2 full hfull e

/-- With more fuel than empty cells `SolveBoard` returns; when it returns true it leaves a
completion of its input, and when it returns false it leaves its input, which has no
completion. -/
theorem SolveBoardAux_spec : ∀ (fuel : Nat) (board : Board) (g : Rng),
    countEmpty board < fuel →
    ∃ ok b' g', SolveBoardAux fuel board g = some (ok, b', g') ∧
      (ok = true → IsCompletion board b') ∧
      (ok = false → b' = board ∧ ∀ full, ¬ IsCompletion board full)
  | 0, _, _, h => absurd h (Nat.not_lt_zero _)
  | fuel + 1, board, g, h => by
    cases hfind : findEmpty board with
    | none =>
      refine ⟨true, board, g, ?_, fun _ => IsCompletion.self (findEmpty_none hfind),
        fun h => absurd h (by decide)⟩
      simp only [SolveBoardAux, hfind]
    | some cell =>
      obtain ⟨row, col⟩ := cell
      have h0 := findEmpty_some hfind
      obtain ⟨ok, b', g', he, hT, hF⟩ :=
        tryNumbers_spec (SolveBoardAux fuel) fuel (SolveBoardAux_spec fuel) row col
          (shuffle digits g).1 board (shuffle digits g).2 h0 (Nat.lt_succ_iff.mp h)
          (fun n hn => (mem_shuffle_digits g n).mp hn)
      refine ⟨ok, b', g', ?_, hT, fun hok => ⟨(hF hok).1, ?_⟩⟩
      · simp only [SolveBoardAux, hfind]
        exact he
      · intro full hfull
        apply (hF hok).2 full hfull
        rw [mem_shuffle_digits]
        have := (hfull row col).2 h0
        exact ⟨this.1, this.2.1⟩

theorem SolveBoard_spec (board : Board) (g : Rng) :
    ∃ ok b' g', SolveBoard board g = some (ok, b', g') ∧
      (ok = true → IsCompletion board b') ∧
      (ok = false → b' = board ∧ ∀ full, ¬ IsCompletion board full) :=
  SolveBoardAux_spec 82 board g (by have := countEmpty_le board; omega)

/-! ## Solved grids and completions of the empty grid -/

theorem SolvedGrid.no_conflict {b : Board} (h : SolvedGrid b) (r c r' c' : Fin 9)
    (hne : (r', c') ≠ (r, c)) (hunit : SameUnit r c r' c') : b r' c' ≠ b r c := by
  intro heq
  obtain ⟨h1, h9⟩ := h.range r c
  rcases hunit with e | e | ⟨e1, e2⟩
  · subst e
    have := (h.2.1 r (b r c) h1 h9).unique heq rfl
    exact hne (by rw [this])
  · subst e
    have := (h.2.2.1 c (b r c) h1 h9).unique heq rfl
    exact hne (by rw [this])
  · have hp : (boxOf (r', c').1 = boxOf r ∧ boxOf (r', c').2 = boxOf c) ∧
        b (r', c').1 (r', c').2 = b r c := ⟨⟨e1.symm, e2.symm⟩, heq⟩
    have hq : (boxOf (r, c).1 = boxOf r ∧ boxOf (r, c).2 = boxOf c) ∧
        b (r, c).1 (r, c).2 = b r c := ⟨⟨rfl, rfl⟩, rfl⟩
    exact hne ((h.2.2.2 (boxOf r) (boxOf c) (b r c) h1 h9).unique hp hq)

theorem boxOf_boxIndex (box i : Fin 3) : boxOf (boxIndex box i) = box := by
  apply Fin.ext
  have := i.isLt
  simp only [boxOf, boxIndex]
  omega

/-- A filled grid without two equal cells in a common row, column or box is solved. -/
theorem SolvedGrid.of_no_conflict {b : Board} (hrange : ∀ r c, 1 ≤ b r c ∧ b r c ≤ 9)
    (hdiff : ∀ r c r' c', (r', c') ≠ (r, c) → SameUnit r c r' c' → b r' c' ≠ b r c) :
    SolvedGrid b := by
  refine ⟨fun r c => by have := hrange r c; omega, ?_, ?_, ?_⟩
  · intro r d h1 h9
    have hinj : ∀ c c', b r c = b r c' → c = c' := by
      intro c c' heq
      by_contra hcc
      exact hdiff r c' r c (fun e => hcc (congrArg Prod.snd e)) (Or.inl rfl) heq
    obtain ⟨c, hc⟩ := all_digits_of_injective (fun c => b r c) (hrange r) hinj d h1 h9
    exact ⟨c, hc, fun c' hc' => hinj c' c (by rw [hc', hc])⟩
  · intro c d h1 h9
    have hinj : ∀ r r', b r c = b r' c → r = r' := by
      intro r r' heq
      by_contra hrr
      exact hdiff r' c r c (fun e => hrr (congrArg Prod.fst e)) (Or.inr (Or.inl rfl)) heq
    obtain ⟨r, hr⟩ := all_digits_of_injective (fun r => b r c) (fun r => hrange r c) hinj d h1 h9
    exact ⟨r, hr, fun r' hr' => hinj r' r (by rw [hr', hr])⟩
  · intro br bc d h1 h9
    have hbox : ∀ p q : Fin 9 × Fin 9, boxOf p.1 = br → boxOf p.2 = bc → boxOf q.1 = br →
        boxOf q.2 = bc → b p.1 p.2 = b q.1 q.2 → p = q := by
      intro p q hp1 hp2 hq1 hq2 heq
      by_contra hpq
      exact hdiff q.1 q.2 p.1 p.2 hpq (Or.inr (Or.inr ⟨by rw [hp1, hq1], by rw [hp2, hq2]⟩)) heq
    let cellOf : Fin 9 → Fin 9 × Fin 9 := fun k =>
      (boxIndex br ⟨k.val / 3, by omega⟩, boxIndex bc ⟨k.val % 3, by omega⟩)
    have hcell : ∀ k, boxOf (cellOf k).1 = br ∧ boxOf (cellOf k).2 = bc := fun k =>
      ⟨boxOf_boxIndex _ _, boxOf_boxIndex _ _⟩
    have hinj : ∀ k k', b (cellOf k).1 (cellOf k).2 = b (cellOf k').1 (cellOf k').2 →
        k = k' := by
      intro k k' heq
      have e := hbox _ _ (hcell k).1 (hcell k).2 (hcell k').1 (hcell k').2 heq
      have e1 := congrArg (fun p : Fin 9 × Fin 9 => p.1.val) e
      have e2 := congrArg (fun p : Fin 9 × Fin 9 => p.2.val) e
      simp only [cellOf, boxIndex] at e1 e2
      apply Fin.ext
      omega
    obtain ⟨k, hk⟩ := all_digits_of_injective (fun k => b (cellOf k).1 (cellOf k).2)
      (fun k => hrange _ _) hinj d h1 h9
    refine ⟨cellOf k, ⟨hcell k, hk⟩, ?_⟩
    rintro q ⟨⟨hq1, hq2⟩, hq⟩
    exact hbox q (cellOf k) hq1 hq2 (hcell k).1 (hcell k).2 (by rw [hq]; exact hk.symm)

/-- The completions of the empty grid are the solved grids. -/
theorem isCompletion_empty_iff (full : Board) :
    IsCompletion (fun _ _ => 0) full ↔ SolvedGrid full := by
  constructor
  · intro h
    exact SolvedGrid.of_no_conflict (fun r c => ⟨((h r c).2 rfl).1, ((h r c).2 rfl).2.1⟩)
      (fun r c => ((h r c).2 rfl).2.2)
  · intro h r c
    exact ⟨fun hne => absurd rfl hne, fun _ => ⟨(h.range r c).1, (h.range r c).2,
      fun r' c' hne hunit => h.no_conflict r c r' c' hne hunit⟩⟩

/-- A solved grid completes every grid obtained from it by blanking cells. -/
theorem SolvedGrid.isCompletion {b full : Board} (h : SolvedGrid full)
    (hsub : ∀ r c, b r c = 0 ∨ b r c = full r c) : IsCompletion b full := by
  intro r c
  refine ⟨fun hne => ?_, fun _ => ⟨(h.range r c).1, (h.range r c).2,
    fun r' c' hne hunit => h.no_conflict r c r' c' hne hunit⟩⟩
  rcases hsub r c with e | e
  · exact absurd e hne
  · exact e.symm

theorem standardSolution_solved : SolvedGrid standardSolution :=
  (IsSolved_iff _).mp (by decide)

/-- The solver succeeds on every grid obtained from a solved grid by blanking cells. -/
theorem SolveBoard_of_sub {b full : Board} (h : SolvedGrid full)
    (hsub : ∀ r c, b r c = 0 ∨ b r c = full r c) (g : Rng) :
    ∃ b' g', SolveBoard b g = some (true, b', g') ∧ IsCompletion b b' := by
  obtain ⟨ok, b', g', he, hT, hF⟩ := SolveBoard_spec b g
  cases ok
  · exact absurd (h.isCompletion hsub) ((hF rfl).2 full)
  · exact ⟨b', g', he, hT rfl⟩

theorem GenerateCompleteSolution_spec (s : SudokuBoard) :
    ∃ b' g', SolveBoard (fun _ _ => 0) s.mRng = some (true, b', g') ∧
      GenerateCompleteSolution s = some { s with mBoard := b', mRng := g' } ∧
      SolvedGrid b' := by
  obtain ⟨b', g', he, hc⟩ :=
    SolveBoard_of_sub standardSolution_solved (b := fun _ _ => 0) (fun _ _ => Or.inl rfl) s.mRng
  refine ⟨b', g', he, ?_, (isCompletion_empty_iff b').mp hc⟩
  simp only [GenerateCompleteSolution, he]

/-! ## Carving -/

theorem countEmpty_blank_le (b : Board) (r c : Fin 9) :
    countEmpty (setCell b r c 0) ≤ countEmpty b + 1 := by
  by_cases h0 : b r c = 0
  · have : setCell b r c 0 = b := by
      funext r' c'
      by_cases h : r' = r ∧ c' = c
      · simp [setCell, h, h0]
      · simp [setCell, h]
    rw [this]
    omega
  · have hback : setCell (setCell b r c 0) r c (b r c) = b := by
      funext r' c'
      by_cases h : r' = r ∧ c' = c
      · simp [setCell, h]
      · simp [setCell, h]
    have := countEmpty_setCell (setCell b r c 0) r c (b r c) (by simp [setCell]) h0
    rw [hback] at this
    omega

theorem countEmpty_eq_zero {b : Board} (h : ∀ r c, b r c ≠ 0) : countEmpty b = 0 := by
  unfold countEmpty
  rw [List.countP_eq_zero]
  intro p _
  simpa using h p.1 p.2

/-- What the removal loop keeps true: the grid is the generated solution with some cells
blanked, the blanked cells are the non-fixed ones, and at most `k` cells are blank. -/
theorem removeStep_spec {full : Board} (hfull : SolvedGrid full) (s : SudokuBoard)
    (cell : Fin 9 × Fin 9) (k : Nat)
    (hsub : ∀ r c, s.mBoard r c = 0 ∨ s.mBoard r c = full r c)
    (hmask : ∀ r c, s.mOriginalCells r c = false ↔ s.mBoard r c = 0)
    (hcount : countEmpty s.mBoard ≤ k) :
    ∃ s', removeStep s cell = some s' ∧
      s'.mBoard = setCell s.mBoard cell.1 cell.2 0 ∧
      (∀ r c, s'.mBoard r c = 0 ∨ s'.mBoard r c = full r c) ∧
      (∀ r c, s'.mOriginalCells r c = false ↔ s'.mBoard r c = 0) ∧
      countEmpty s'.mBoard ≤ k + 1 := by
  have hsub' : ∀ r c, setCell s.mBoard cell.1 cell.2 0 r c = 0 ∨
      setCell s.mBoard cell.1 cell.2 0 r c = full r c := by
    intro r c
    by_cases h : r = cell.1 ∧ c = cell.2
    · simp [setCell, h]
    · simpa [setCell, h] using hsub r c
  obtain ⟨b', g', he, _⟩ := SolveBoard_of_sub hfull hsub' s.mRng
  refine ⟨{ mBoard := setCell s.mBoard cell.1 cell.2 0,
             mOriginalCells := setFlag s.mOriginalCells cell.1 cell.2 false, mRng := g' },
    by simp only [removeStep, he], rfl, hsub', ?_, ?_⟩
  · intro r c
    by_cases h : r = cell.1 ∧ c = cell.2
    · simp [setCell, setFlag, h]
    · simpa [setCell, setFlag, h] using hmask r c
  · have := countEmpty_blank_le s.mBoard cell.1 cell.2
    show countEmpty (setCell s.mBoard cell.1 cell.2 0) ≤ k + 1
    omega

theorem removeLoop_spec {full : Board} (hfull : SolvedGrid full) :
    ∀ (cells : List (Fin 9 × Fin 9)) (s : SudokuBoard) (k : Nat),
      (∀ r c, s.mBoard r c = 0 ∨ s.mBoard r c = full r c) →
      (∀ r c, s.mOriginalCells r c = false ↔ s.mBoard r c = 0) →
      countEmpty s.mBoard ≤ k →
      ∃ s', cells.foldlM removeStep s = some s' ∧
        (∀ r c, s'.mBoard r c = 0 ∨ s'.mBoard r c = full r c) ∧
        (∀ r c, s'.mOriginalCells r c = false ↔ s'.mBoard r c = 0) ∧
        countEmpty s'.mBoard ≤ k + cells.length
  | [], s, k, hsub, hmask, hcount => ⟨s, rfl, hsub, hmask, hcount⟩
  | cell :: rest, s, k, hsub, hmask, hcount => by
    obtain ⟨s1, he1, _, hsub1, hmask1, hcount1⟩ :=
      removeStep_spec hfull s cell k hsub hmask hcount
    obtain ⟨s2, he2, hsub2, hmask2, hcount2⟩ :=
      removeLoop_spec hfull rest s1 (k + 1) hsub1 hmask1 hcount1
    refine ⟨s2, ?_, hsub2, hmask2, ?_⟩
    · rw [List.foldlM_cons, he1]
      exact he2
    · simp only [List.length_cons]
      omega

theorem NewGame_spec (s : SudokuBoard) (difficulty : Int) :
    ∃ s' full, NewGame s difficulty = some s' ∧ SolvedGrid full ∧
      (∀ r c, s'.mBoard r c = 0 ∨ s'.mBoard r c = full r c) ∧
      (∀ r c, s'.mOriginalCells r c = false ↔ s'.mBoard r c = 0) ∧
      countEmpty s'.mBoard ≤ cellsToRemove difficulty := by
  obtain ⟨full, g1, _, hgen, hfull⟩ := GenerateCompleteSolution_spec
    { s with mBoard := fun _ _ => 0, mOriginalCells := fun _ _ => false }
  have hnz : ∀ r c, full r c ≠ 0 := hfull.1
  obtain ⟨s', he, hsub, hmask, hcount⟩ := removeLoop_spec hfull
    ((shuffle allCells g1).1.take (cellsToRemove difficulty))
    { mBoard := full, mOriginalCells := fun _ _ => true, mRng := (shuffle allCells g1).2 } 0
    (fun _ _ => Or.inr rfl) (fun r c => by simpa using hnz r c)
    (by rw [countEmpty_eq_zero hnz])
  refine ⟨s', full, ?_, hfull, hsub, hmask, ?_⟩
  · simp only [NewGame, hgen, RemoveCells]
    exact he
  · have := List.length_take_le (cellsToRemove difficulty) (shuffle allCells g1).1
    omega

/-! ## Cell access with integer coordinates -/

theorem GetCell_coe (s : SudokuBoard) (r c : Fin 9) :
    GetCell s (r.val : Int) (c.val : Int) = s.mBoard r c := by
  have hr := r.isLt
  have hc := c.isLt
  unfold GetCell
  rw [dif_pos (by omega)]
  simp only [Int.toNat_ofNat, Fin.eta]

theorem IsOriginalCell_coe (s : SudokuBoard) (r c : Fin 9) :
    IsOriginalCell s (r.val : Int) (c.val : Int) = s.mOriginalCells r c := by
  have hr := r.isLt
  have hc := c.isLt
  unfold IsOriginalCell
  rw [dif_pos (by omega)]
  simp only [Int.toNat_ofNat, Fin.eta]

theorem IsOriginalCell_out_of_range (s : SudokuBoard) (row col : Int)
    (h : ¬ (0 ≤ row ∧ row < 9 ∧ 0 ≤ col ∧ col < 9)) : IsOriginalCell s row col = false := by
  unfold IsOriginalCell
  rw [dif_neg (by omega)]

theorem SetCell_coe (s : SudokuBoard) (r c : Fin 9) (value : Int) :
    SetCell s (r.val : Int) (c.val : Int) value =
      if 1 ≤ value ∧ value ≤ 9 ∧ s.mOriginalCells r c = false then
        { s with mBoard := setCell s.mBoard r c value }
      else s := by
  have hr := r.isLt
  have hc := c.isLt
  unfold SetCell
  by_cases hv : 1 ≤ value ∧ value ≤ 9
  · rw [dif_pos (by omega)]
    simp only [Int.toNat_ofNat, Fin.eta, hv, true_and, and_self]
    cases hm : s.mOriginalCells r c <;> simp
  · rw [dif_neg (by omega), if_neg (by omega)]

theorem SetCell_out_of_range (s : SudokuBoard) (row col value : Int)
    (h : ¬ (0 ≤ row ∧ row < 9 ∧ 0 ≤ col ∧ col < 9)) : SetCell s row col value = s := by
  unfold SetCell
  rw [dif_neg (by omega)]

theorem ClearCell_coe (s : SudokuBoard) (r c : Fin 9) :
    ClearCell s (r.val : Int) (c.val : Int) =
      if s.mOriginalCells r c = false then { s with mBoard := setCell s.mBoard r c 0 }
      else s := by
  have hr := r.isLt
  have hc := c.isLt
  unfold ClearCell
  rw [dif_pos (by omega)]
  simp only [Int.toNat_ofNat, Fin.eta]
  cases hm : s.mOriginalCells r c <;> simp

theorem ClearCell_out_of_range (s : SudokuBoard) (row col : Int)
    (h : ¬ (0 ≤ row ∧ row < 9 ∧ 0 ≤ col ∧ col < 9)) : ClearCell s row col = s := by
  unfold ClearCell
  rw [dif_neg (by omega)]

theorem setCell_same (b : Board) (r c : Fin 9) (v : Int) : setCell b r c v r c = v := by
  simp [setCell]

theorem setCell_other (b : Board) (r c r' c' : Fin 9) (v : Int)
    (h : (r'.val : Int) ≠ (r.val : Int) ∨ (c'.val : Int) ≠ (c.val : Int)) :
    setCell b r c v r' c' = b r' c' := by
  have : ¬ (r' = r ∧ c' = c) := by
    rintro ⟨rfl, rfl⟩
    rcases h with h | h <;> exact h rfl
  simp [setCell, this]

theorem IsNumberValid_coe (s : SudokuBoard) (r c : Fin 9) :
    IsNumberValid s (r.val : Int) (c.val : Int) = true ↔
      s.mBoard r c = 0 ∨
        ((∀ c', c' ≠ c → s.mBoard r c' ≠ s.mBoard r c) ∧
         (∀ r', r' ≠ r → s.mBoard r' c ≠ s.mBoard r c) ∧
         (∀ r' c', boxOf r' = boxOf r → boxOf c' = boxOf c → (r', c') ≠ (r, c) →
            s.mBoard r' c' ≠ s.mBoard r c)) := by
  have hr := r.isLt
  have hc := c.isLt
  unfold IsNumberValid
  rw [dif_neg (by omega)]
  simp only [Int.toNat_ofNat, Fin.eta]
  by_cases hz : s.mBoard r c = 0
  · simp [hz]
  · simp only [hz, if_false, false_or]
    constructor
    · intro h
      split at h
      · exact absurd h (by simp)
      rename_i h1
      split at h
      · exact absurd h (by simp)
      rename_i h2
      split at h
      · exact absurd h (by simp)
      rename_i h3
      simp only [List.any_eq_true, not_exists, not_and, Bool.and_eq_true, bne_iff_ne,
        beq_iff_eq, Bool.or_eq_true, mem_boxCells] at h1 h2 h3
      refine ⟨fun c' hne => h1 c' (List.mem_finRange _) hne,
        fun r' hne => h2 r' (List.mem_finRange _) hne, ?_⟩
      intro r' c' e1 e2 hne
      apply h3 (r', c') ⟨e1, e2⟩
      by_contra hcon
      simp only [not_or, ne_eq, not_not] at hcon
      exact hne (by rw [hcon.1, hcon.2])
    · rintro ⟨h1, h2, h3⟩
      have e1 : ((List.finRange 9).any fun c' => c' != c && s.mBoard r c' == s.mBoard r c)
          = false := by
        rw [List.any_eq_false]
        intro c' _
        simp only [Bool.and_eq_true, bne_iff_ne, beq_iff_eq, not_and]
        exact h1 c'
      have e2 : ((List.finRange 9).any fun r' => r' != r && s.mBoard r' c == s.mBoard r c)
          = false := by
        rw [List.any_eq_false]
        intro r' _
        simp only [Bool.and_eq_true, bne_iff_ne, beq_iff_eq, not_and]
        exact h2 r'
      have e3 : ((boxCells (boxOf r) (boxOf c)).any fun p =>
          (p.1 != r || p.2 != c) && s.mBoard p.1 p.2 == s.mBoard r c) = false := by
        rw [List.any_eq_false]
        rintro ⟨r', c'⟩ hmem
        rw [mem_boxCells] at hmem
        simp only [Bool.and_eq_true, Bool.or_eq_true, bne_iff_ne, beq_iff_eq, not_and]
        intro hne
        apply h3 r' c' hmem.1 hmem.2
        intro e
        have e1 : r' = r := congrArg Prod.fst e
        have e2 : c' = c := congrArg Prod.snd e
        rcases hne with h | h
        · exact h e1
        · exact h e2
      simp [e1, e2, e3]

/-! ## Hints -/

theorem mem_emptyCells (b : Board) (p : Fin 9 × Fin 9) :
    p ∈ emptyCells b ↔ b p.1 p.2 = 0 := by
  simp [emptyCells, mem_allCells]

theorem emptyCells_length_eq_zero (b : Board) :
    (emptyCells b).length = 0 ↔ ∀ r c, b r c ≠ 0 := by
  rw [List.length_eq_zero, List.eq_nil_iff_forall_not_mem]
  constructor
  · intro h r c h0
    exact h (r, c) ((mem_emptyCells b (r, c)).mpr h0)
  · intro h p hp
    exact h p.1 p.2 ((mem_emptyCells b p).mp hp)

/-- The result of `GetHint` on a grid without an empty cell. -/
theorem GetHint_full (s : SudokuBoard) (out : HintOut) (h : ∀ r c, s.mBoard r c ≠ 0) :
    GetHint s out = some (false, out, s) := by
  unfold GetHint
  rw [dif_pos ((emptyCells_length_eq_zero _).mpr h)]

/-- The result of `GetHint` on a grid with an empty cell: the drawn cell is empty, and the
outcome is that of the solver on the copy. -/
theorem GetHint_some_empty (s : SudokuBoard) (out : HintOut)
    (h : ¬ ∀ r c, s.mBoard r c ≠ 0) :
    ∃ (r c : Fin 9) (ok : Bool) (b' : Board) (g' : Rng), s.mBoard r c = 0 ∧
      SolveBoard s.mBoard s.mRng.advance = some (ok, b', g') ∧
      (ok = true → IsCompletion s.mBoard b') ∧
      GetHint s out = some (ok,
        { row := (r.val : Int), col := (c.val : Int),
          value := if ok then b' r c else out.value },
        { s with mRng := g' }) := by
  have hlen : ¬ (emptyCells s.mBoard).length = 0 := fun e =>
    h ((emptyCells_length_eq_zero _).mp e)
  obtain ⟨ok, b', g', he, hT, _⟩ := SolveBoard_spec s.mBoard s.mRng.advance
  have hmem := List.get_mem (emptyCells s.mBoard)
    (s.mRng.draw (emptyCells s.mBoard).length (Nat.pos_of_ne_zero hlen)).1.val
    (s.mRng.draw (emptyCells s.mBoard).length (Nat.pos_of_ne_zero hlen)).1.isLt
  rw [mem_emptyCells] at hmem
  refine ⟨_, _, ok, b', g', hmem, he, hT, ?_⟩
  unfold GetHint
  rw [dif_neg hlen]
  have hdraw : (s.mRng.draw (emptyCells s.mBoard).length (Nat.pos_of_ne_zero hlen)).2 =
      s.mRng.advance := rfl
  simp only [hdraw, he]
  cases ok <;> rfl

/-! ## The properties of the engine -/

/-- Claim C1: `IsSolved` returns true exactly on the grids in which all 81 cells are
non-empty and every row, every column and every 3x3 box holds each digit of `1..9` exactly
once.  On such a grid, changing one cell to any different value (in particular to one of
`0..9`) gives a grid on which `IsSolved` returns false; so it is for the completed grid
with row 0 equal to `5 3 4 6 7 8 9 1 2`, which is solved, and is not after cell (0,0) is
set to 3. -/
theorem IsSolved_spec :
    (∀ b : Board, IsSolved b = true ↔
      (∀ r c, b r c ≠ 0) ∧
      (∀ r : Fin 9, ∀ d : Int, 1 ≤ d → d ≤ 9 → ∃! c : Fin 9, b r c = d) ∧
      (∀ c : Fin 9, ∀ d : Int, 1 ≤ d → d ≤ 9 → ∃! r : Fin 9, b r c = d) ∧
      (∀ boxRow boxCol : Fin 3, ∀ d : Int, 1 ≤ d → d ≤ 9 →
        ∃! p : Fin 9 × Fin 9, (boxOf p.1 = boxRow ∧ boxOf p.2 = boxCol) ∧ b p.1 p.2 = d)) ∧
    (∀ (b : Board) (r c : Fin 9) (v : Int), IsSolved b = true → v ≠ b r c →
      IsSolved (setCell b r c v) = false) ∧
    (List.finRange 9).map (standardSolution 0) = [5, 3, 4, 6, 7, 8, 9, 1, 2] ∧
    IsSolved standardSolution = true ∧
    IsSolved (setCell standardSolution 0 0 3) = false := by
  refine ⟨fun b => IsSolved_iff b, ?_, by decide, by decide, by decide⟩
  intro b r c v hb hv
  have hs := (IsSolved_iff b).mp hb
  cases hres : IsSolved (setCell b r c v)
  · rfl
  · exact absurd ((IsSolved_iff _).mp hres) (not_solved_of_change hs r c v hv)

/-- The second part of claim C1 at the solved grid `standardSolution`, cell (4,4) set
from 5 to 9. -/
theorem IsSolved_spec_witness :
    IsSolved standardSolution = true ∧ (9 : Int) ≠ standardSolution 4 4 ∧
      IsSolved (setCell standardSolution 4 4 9) = false :=
  ⟨by decide, by decide, IsSolved_spec.2.1 standardSolution 4 4 9 (by decide) (by decide)⟩

/-- Claim C3: `IsValidMove(row, col, value)` returns true exactly when the coordinates are
in `0..8`, the value is in `1..9`, the cell is not fixed, and no cell of the row, of the
column or of the 3x3 box of the cell holds the value, the cell itself included; so the
value a cell holds is never a valid move for that cell. -/
theorem IsValidMove_spec :
    (∀ (s : SudokuBoard) (row col value : Int),
      IsValidMove s row col value = true ↔
        0 ≤ row ∧ row < 9 ∧ 0 ≤ col ∧ col < 9 ∧ 1 ≤ value ∧ value ≤ 9 ∧
        IsOriginalCell s row col = false ∧
        ∃ r c : Fin 9, (r.val : Int) = row ∧ (c.val : Int) = col ∧
          (∀ c', s.mBoard r c' ≠ value) ∧ (∀ r', s.mBoard r' c ≠ value) ∧
          (∀ r' c', boxOf r' = boxOf r → boxOf c' = boxOf c → s.mBoard r' c' ≠ value)) ∧
    (∀ (s : SudokuBoard) (r c : Fin 9),
      IsValidMove s (r.val : Int) (c.val : Int) (s.mBoard r c) = false) := by
  have key : ∀ (s : SudokuBoard) (r c : Fin 9) (value : Int),
      isValid s.mBoard r c value = true ↔
        (∀ c', s.mBoard r c' ≠ value) ∧ (∀ r', s.mBoard r' c ≠ value) ∧
        (∀ r' c', boxOf r' = boxOf r → boxOf c' = boxOf c → s.mBoard r' c' ≠ value) := by
    intro s r c value
    rw [isValid_iff]
    constructor
    · intro h
      exact ⟨fun c' => h r c' (Or.inl rfl), fun r' => h r' c (Or.inr (Or.inl rfl)),
        fun r' c' e1 e2 => h r' c' (Or.inr (Or.inr ⟨e1.symm, e2.symm⟩))⟩
    · rintro ⟨h1, h2, h3⟩ r' c' hunit
      rcases hunit with rfl | rfl | ⟨e1, e2⟩
      · exact h1 c'
      · exact h2 r'
      · exact h3 r' c' e1.symm e2.symm
  constructor
  · intro s row col value
    by_cases hrange : 0 ≤ row ∧ row < 9 ∧ 0 ≤ col ∧ col < 9
    · obtain ⟨r, rfl⟩ := exists_index row hrange.1 hrange.2.1
      obtain ⟨c, rfl⟩ := exists_index col hrange.2.2.1 hrange.2.2.2
      rw [IsValidMove_coe, IsOriginalCell_coe]
      simp only [Bool.and_eq_true, decide_eq_true_eq, Bool.not_eq_true', key]
      constructor
      · rintro ⟨⟨hv, hm⟩, hscan⟩
        exact ⟨hrange.1, hrange.2.1, hrange.2.2.1, hrange.2.2.2, hv.1, hv.2, hm,
          r, c, rfl, rfl, hscan⟩
      · rintro ⟨_, _, _, _, hv1, hv9, hm, r', c', er, ec, hscan⟩
        have er' : r' = r := Fin.ext (by omega)
        have ec' : c' = c := Fin.ext (by omega)
        subst er' ec'
        exact ⟨⟨⟨hv1, hv9⟩, hm⟩, hscan⟩
    · rw [IsValidMove_out_of_range s row col value hrange]
      constructor
      · intro h
        exact absurd h (by decide)
      · rintro ⟨h1, h2, h3, h4, _⟩
        exact absurd ⟨h1, h2, h3, h4⟩ hrange
  · intro s r c
    rw [IsValidMove_coe]
    have : isValid s.mBoard r c (s.mBoard r c) = false := by
      rw [← Bool.not_eq_true, isValid_iff]
      intro h
      exact h r c (SameUnit.refl r c) rfl
    rw [this, Bool.and_false]

/-- Claim C4: with coordinates in `0..8`, a value in `1..9` and a cell that is not fixed,
`SetCell(row, col, value)` makes `GetCell(row, col)` equal to `value` and leaves every
other cell as it was; in every other case the whole grid is left as it was; the fixed
mask is never changed. -/
theorem SetCell_spec (s : SudokuBoard) (row col value : Int) :
    ((0 ≤ row ∧ row < 9 ∧ 0 ≤ col ∧ col < 9 ∧ 1 ≤ value ∧ value ≤ 9 ∧
        IsOriginalCell s row col = false) →
      GetCell (SetCell s row col value) row col = value ∧
      ∀ r c : Fin 9, ((r.val : Int) ≠ row ∨ (c.val : Int) ≠ col) →
        (SetCell s row col value).mBoard r c = s.mBoard r c) ∧
    (¬ (0 ≤ row ∧ row < 9 ∧ 0 ≤ col ∧ col < 9 ∧ 1 ≤ value ∧ value ≤ 9 ∧
        IsOriginalCell s row col = false) →
      (SetCell s row col value).mBoard = s.mBoard) ∧
    (SetCell s row col value).mOriginalCells = s.mOriginalCells := by
  by_cases hrange : 0 ≤ row ∧ row < 9 ∧ 0 ≤ col ∧ col < 9
  · obtain ⟨r, rfl⟩ := exists_index row hrange.1 hrange.2.1
    obtain ⟨c, rfl⟩ := exists_index col hrange.2.2.1 hrange.2.2.2
    rw [SetCell_coe, IsOriginalCell_coe]
    by_cases hcond : 1 ≤ value ∧ value ≤ 9 ∧ s.mOriginalCells r c = false
    · rw [if_pos hcond]
      refine ⟨fun _ => ⟨?_, fun r' c' hne => setCell_other _ _ _ _ _ _ hne⟩, ?_, rfl⟩
      · rw [GetCell_coe]
        exact setCell_same _ _ _ _
      · intro hneg
        exact absurd ⟨hrange.1, hrange.2.1, hrange.2.2.1, hrange.2.2.2, hcond⟩ hneg
    · rw [if_neg hcond]
      refine ⟨fun h => absurd h.2.2.2.2 hcond, fun _ => rfl, rfl⟩
  · rw [SetCell_out_of_range s row col value hrange]
    refine ⟨fun h => absurd ⟨h.1, h.2.1, h.2.2.1, h.2.2.2.1⟩ hrange, fun _ => rfl, rfl⟩

/-- Claim C8: for a cell in range, `IsNumberValid(row, col)` returns true exactly when the
cell is empty or its value is held by no other cell of its row, of its column and of its
3x3 box. -/
theorem IsNumberValid_spec (s : SudokuBoard) (r c : Fin 9) :
    IsNumberValid s (r.val : Int) (c.val : Int) = true ↔
      GetCell s (r.val : Int) (c.val : Int) = 0 ∨
        ((∀ c' : Fin 9, c' ≠ c → s.mBoard r c' ≠ s.mBoard r c) ∧
         (∀ r' : Fin 9, r' ≠ r → s.mBoard r' c ≠ s.mBoard r c) ∧
         (∀ r' c' : Fin 9, boxOf r' = boxOf r → boxOf c' = boxOf c → (r', c') ≠ (r, c) →
            s.mBoard r' c' ≠ s.mBoard r c)) := by
  rw [GetCell_coe]
  exact IsNumberValid_coe s r c

/-- Claim C9: with coordinates in `0..8` and a cell that is not fixed, `ClearCell(row, col)`
makes `GetCell(row, col)` equal to 0 and leaves every other cell as it was; in every other
case the whole grid is left as it was; the fixed mask is never changed. -/
theorem ClearCell_spec (s : SudokuBoard) (row col : Int) :
    ((0 ≤ row ∧ row < 9 ∧ 0 ≤ col ∧ col < 9 ∧ IsOriginalCell s row col = false) →
      GetCell (ClearCell s row col) row col = 0 ∧
      ∀ r c : Fin 9, ((r.val : Int) ≠ row ∨ (c.val : Int) ≠ col) →
        (ClearCell s row col).mBoard r c = s.mBoard r c) ∧
    (¬ (0 ≤ row ∧ row < 9 ∧ 0 ≤ col ∧ col < 9 ∧ IsOriginalCell s row col = false) →
      (ClearCell s row col).mBoard = s.mBoard) ∧
    (ClearCell s row col).mOriginalCells = s.mOriginalCells := by
  by_cases hrange : 0 ≤ row ∧ row < 9 ∧ 0 ≤ col ∧ col < 9
  · obtain ⟨r, rfl⟩ := exists_index row hrange.1 hrange.2.1
    obtain ⟨c, rfl⟩ := exists_index col hrange.2.2.1 hrange.2.2.2
    rw [ClearCell_coe, IsOriginalCell_coe]
    by_cases hcond : s.mOriginalCells r c = false
    · rw [if_pos hcond]
      refine ⟨fun _ => ⟨?_, fun r' c' hne => setCell_other _ _ _ _ _ _ hne⟩, ?_, rfl⟩
      · rw [GetCell_coe]
        exact setCell_same _ _ _ _
      · intro hneg
        exact absurd ⟨hrange.1, hrange.2.1, hrange.2.2.1, hrange.2.2.2, hcond⟩ hneg
    · rw [if_neg hcond]
      refine ⟨fun h => absurd h.2.2.2.2 hcond, fun _ => rfl, rfl⟩
  · rw [ClearCell_out_of_range s row col hrange]
    refine ⟨fun h => absurd ⟨h.1, h.2.1, h.2.2.1, h.2.2.2.1⟩ hrange, fun _ => rfl, rfl⟩

/-- Claim C5: `GetHint` returns, and it returns true exactly when the grid has an empty
cell and the solver succeeds on the copy of the grid (run with the generator as the draw
of the cell left it).  When it returns true, the reported row and column are in `0..8`
and name a cell that is empty in the grid, and the reported value is the digit of `1..9`
that the solved copy holds at that cell. -/
theorem GetHint_spec (s : SudokuBoard) (out : HintOut) :
    ∃ (ret : Bool) (out' : HintOut) (s' : SudokuBoard),
      GetHint s out = some (ret, out', s') ∧
      (ret = true ↔ (∃ r c, s.mBoard r c = 0) ∧
        ∃ b' g', SolveBoard s.mBoard s.mRng.advance = some (true, b', g')) ∧
      (ret = true → ∃ (r c : Fin 9) (b' : Board) (g' : Rng),
        out'.row = (r.val : Int) ∧ out'.col = (c.val : Int) ∧
        0 ≤ out'.row ∧ out'.row < 9 ∧ 0 ≤ out'.col ∧ out'.col < 9 ∧
        GetCell s out'.row out'.col = 0 ∧
        SolveBoard s.mBoard s.mRng.advance = some (true, b', g') ∧
        out'.value = b' r c ∧ 1 ≤ out'.value ∧ out'.value ≤ 9) := by
  by_cases hfull : ∀ r c, s.mBoard r c ≠ 0
  · refine ⟨false, out, s, GetHint_full s out hfull, ?_, fun h => absurd h (by decide)⟩
    constructor
    · intro h
      exact absurd h (by decide)
    · rintro ⟨⟨r, c, h0⟩, _⟩
      exact absurd h0 (hfull r c)
  · obtain ⟨r, c, ok, b', g', h0, he, hT, hget⟩ := GetHint_some_empty s out hfull
    refine ⟨ok, _, _, hget, ?_, ?_⟩
    · constructor
      · intro hok
        subst hok
        exact ⟨⟨r, c, h0⟩, b', g', he⟩
      · rintro ⟨_, b2, g2, he2⟩
        rw [he] at he2
        exact congrArg Prod.fst (Option.some.inj he2)
    · intro hok
      subst hok
      have hr := r.isLt
      have hc := c.isLt
      have hdigit := ((hT rfl) r c).2 h0
      refine ⟨r, c, b', g', rfl, rfl, ?_, ?_, ?_, ?_, ?_, he, rfl, hdigit.1, hdigit.2.1⟩
      · show (0 : Int) ≤ (r.val : Int)
        omega
      · show (r.val : Int) < 9
        omega
      · show (0 : Int) ≤ (c.val : Int)
        omega
      · show (c.val : Int) < 9
        omega
      · show GetCell s (r.val : Int) (c.val : Int) = 0
        rw [GetCell_coe]
        exact h0

/-- Claim C6: on a grid without an empty cell `GetHint` returns false, and whatever it
returns, every cell of the grid and every entry of the fixed mask is as before the call. -/
theorem GetHint_frame :
    (∀ (s : SudokuBoard) (out : HintOut), (∀ r c, s.mBoard r c ≠ 0) →
      ∃ out' s', GetHint s out = some (false, out', s') ∧
        s'.mBoard = s.mBoard ∧ s'.mOriginalCells = s.mOriginalCells) ∧
    (∀ (s : SudokuBoard) (out : HintOut),
      ∃ ret out' s', GetHint s out = some (ret, out', s') ∧
        s'.mBoard = s.mBoard ∧ s'.mOriginalCells = s.mOriginalCells) := by
  constructor
  · intro s out hfull
    exact ⟨out, s, GetHint_full s out hfull, rfl, rfl⟩
  · intro s out
    by_cases hfull : ∀ r c, s.mBoard r c ≠ 0
    · exact ⟨false, out, s, GetHint_full s out hfull, rfl, rfl⟩
    · obtain ⟨r, c, ok, b', g', _, _, _, hget⟩ := GetHint_some_empty s out hfull
      exact ⟨ok, _, _, hget, rfl, rfl⟩

/-- The first part of claim C6 at the solved grid `standardSolution` with every cell
fixed. -/
theorem GetHint_frame_witness :
    (∀ r c, solvedEngine.mBoard r c ≠ 0) ∧
    ∃ out' s', GetHint solvedEngine ⟨0, 0, 0⟩ = some (false, out', s') ∧
      s'.mBoard = solvedEngine.mBoard ∧ s'.mOriginalCells = solvedEngine.mOriginalCells :=
  ⟨by decide, GetHint_frame.1 solvedEngine ⟨0, 0, 0⟩ (by decide)⟩

/-- Claim C7: whatever the generator state and the grid before, `GenerateCompleteSolution`
returns with the solver having succeeded on the cleared grid, and leaves a grid with no
blank on which `IsSolved` returns true. -/
theorem GenerateCompleteSolution_solved (s : SudokuBoard) :
    ∃ s' g', GenerateCompleteSolution s = some s' ∧
      SolveBoard (fun _ _ => 0) s.mRng = some (true, s'.mBoard, g') ∧
      (∀ r c, s'.mBoard r c ≠ 0) ∧ IsSolved s'.mBoard = true ∧
      s'.mOriginalCells = s.mOriginalCells := by
  obtain ⟨b', g', he, hgen, hsolved⟩ := GenerateCompleteSolution_spec s
  exact ⟨_, g', hgen, he, hsolved.1, (IsSolved_iff b').mpr hsolved, rfl⟩

/-- Claim C2: for a difficulty of 1, 2 or 3, whatever the engine state and the generator
state before, `NewGame` returns and the grid it leaves has a full valid completion: a grid
without an empty cell, in which every row, column and 3x3 box holds each digit of `1..9`
exactly once, that agrees with it on every non-empty cell. -/
theorem NewGame_solvable (s : SudokuBoard) (d : Int) (_ : d = 1 ∨ d = 2 ∨ d = 3) :
    ∃ s', NewGame s d = some s' ∧
      ∃ full : Board, SolvedGrid full ∧ IsSolved full = true ∧
        ∀ r c, s'.mBoard r c ≠ 0 → full r c = s'.mBoard r c := by
  obtain ⟨s', full, he, hfull, hsub, _, _⟩ := NewGame_spec s d
  refine ⟨s', he, full, hfull, (IsSolved_iff full).mpr hfull, ?_⟩
  intro r c hne
  rcases hsub r c with e | e
  · exact absurd e hne
  · exact e.symm

/-- Claim C2 for a new game of difficulty 3 on a freshly constructed engine. -/
theorem NewGame_solvable_witness :
    ((3 : Int) = 1 ∨ (3 : Int) = 2 ∨ (3 : Int) = 3) ∧
    ∃ s', NewGame (SudokuBoard.new sampleRng) 3 = some s' ∧
      ∃ full : Board, SolvedGrid full ∧ IsSolved full = true ∧
        ∀ r c, s'.mBoard r c ≠ 0 → full r c = s'.mBoard r c :=
  ⟨by decide, NewGame_solvable _ 3 (by decide)⟩

/-- Claim C10: for a difficulty of 1, 2 or 3, after `NewGame` a cell is non-fixed exactly
when it is empty, and the number of such cells is at most 40, 50 or 60 respectively. -/
theorem NewGame_blank_cells (s : SudokuBoard) (d : Int) (hd : d = 1 ∨ d = 2 ∨ d = 3) :
    ∃ s', NewGame s d = some s' ∧
      (∀ r c, s'.mOriginalCells r c = false ↔ s'.mBoard r c = 0) ∧
      allCells.countP (fun p => !s'.mOriginalCells p.1 p.2) = countEmpty s'.mBoard ∧
      allCells.countP (fun p => !s'.mOriginalCells p.1 p.2) ≤
        (if d = 1 then 40 else if d = 2 then 50 else 60) := by
  obtain ⟨s', full, he, _, _, hmask, hcount⟩ := NewGame_spec s d
  have hsame : allCells.countP (fun p => !s'.mOriginalCells p.1 p.2) = countEmpty s'.mBoard := by
    unfold countEmpty
    apply List.countP_congr
    intro p _
    have := hmask p.1 p.2
    simp only [Bool.not_eq_true', beq_iff_eq]
    exact this
  refine ⟨s', he, hmask, hsame, ?_⟩
  rw [hsame]
  have htarget : cellsToRemove d = (if d = 1 then 40 else if d = 2 then 50 else 60) := by
    unfold cellsToRemove
    rcases hd with rfl | rfl | rfl <;> simp
  omega

/-- Claim C10 for a new game of difficulty 1 on a freshly constructed engine. -/
theorem NewGame_blank_cells_witness :
    ((1 : Int) = 1 ∨ (1 : Int) = 2 ∨ (1 : Int) = 3) ∧
    ∃ s', NewGame (SudokuBoard.new sampleRng) 1 = some s' ∧
      (∀ r c, s'.mOriginalCells r c = false ↔ s'.mBoard r c = 0) ∧
      allCells.countP (fun p => !s'.mOriginalCells p.1 p.2) = countEmpty s'.mBoard ∧
      allCells.countP (fun p => !s'.mOriginalCells p.1 p.2) ≤ 40 :=
  ⟨by decide, NewGame_blank_cells _ 1 (by decide)⟩

/-- Claim C11, amended: for a cell in range that is not fixed and a value of `1..9`,
`IsValidMove` returns false whenever the value occurs at another cell of the row, the column
or the 3x3 box of the cell, or at the cell itself, and returns true otherwise; for a cell
that does not hold the value (an empty cell above all) it returns false exactly when the
value occurs elsewhere in the row, the column or the box. -/
theorem IsValidMove_elsewhere (s : SudokuBoard) (r c : Fin 9) (v : Int)
    (hfix : IsOriginalCell s (r.val : Int) (c.val : Int) = false) (h1 : 1 ≤ v) (h9 : v ≤ 9) :
    (IsValidMove s (r.val : Int) (c.val : Int) v = true ↔
      s.mBoard r c ≠ v ∧
      ¬ ∃ r' c' : Fin 9, (r', c') ≠ (r, c) ∧ SameUnit r c r' c' ∧ s.mBoard r' c' = v) ∧
    (s.mBoard r c ≠ v →
      (IsValidMove s (r.val : Int) (c.val : Int) v = false ↔
        ∃ r' c' : Fin 9, (r', c') ≠ (r, c) ∧ SameUnit r c r' c' ∧ s.mBoard r' c' = v)) := by
  rw [IsOriginalCell_coe] at hfix
  have hmove : IsValidMove s (r.val : Int) (c.val : Int) v = isValid s.mBoard r c v := by
    rw [IsValidMove_coe, hfix]
    simp [h1, h9]
  have hiff : isValid s.mBoard r c v = true ↔
      s.mBoard r c ≠ v ∧
      ¬ ∃ r' c' : Fin 9, (r', c') ≠ (r, c) ∧ SameUnit r c r' c' ∧ s.mBoard r' c' = v := by
    rw [isValid_iff]
    constructor
    · intro h
      exact ⟨h r c (SameUnit.refl r c), fun ⟨r', c', _, hunit, hv⟩ => h r' c' hunit hv⟩
    · rintro ⟨hself, hno⟩ r' c' hunit hv
      by_cases hsame : (r', c') = (r, c)
      · have e1 : r' = r := congrArg Prod.fst hsame
        have e2 : c' = c := congrArg Prod.snd hsame
        rw [e1, e2] at hv
        exact hself hv
      · exact hno ⟨r', c', hsame, hunit, hv⟩
  rw [hmove]
  refine ⟨hiff, fun hself => ?_⟩
  rw [← Bool.not_eq_true, hiff]
  constructor
  · intro h
    by_contra hno
    exact h ⟨hself, hno⟩
  · intro hex h
    exact h.2 hex

/-- Claim C11, amended, at the grid of `singleFive` for the value 7 at cell (0,0). -/
theorem IsValidMove_elsewhere_witness :
    IsOriginalCell singleFive 0 0 = false ∧ IsValidMove singleFive 0 0 7 = true ∧
      singleFive.mBoard 0 0 ≠ 7 :=
  ⟨by decide, by decide,
    ((IsValidMove_elsewhere singleFive 0 0 7 (by decide) (by decide) (by decide)).1.mp
      (by decide)).1⟩

/-- Claim C11 as stated fails: in the grid of `singleFive` nothing is fixed and 5 occurs at
no cell other than (0,0), in particular at none of its row, column and box, yet
`IsValidMove(0, 0, 5)` returns false. -/
theorem IsValidMove_elsewhere_counterexample :
    IsOriginalCell singleFive 0 0 = false ∧
    (∀ r' c' : Fin 9, (r', c') ≠ (0, 0) → singleFive.mBoard r' c' ≠ 5) ∧
    IsValidMove singleFive 0 0 5 = false := by
  refine ⟨by decide, ?_, by decide⟩
  intro r' c' hne h5
  by_cases h : r' = 0 ∧ c' = 0
  · exact hne (by rw [h.1, h.2])
  · simp [singleFive, setCell, h] at h5

/-! ## Recursion depth of the solver -/

theorem tryNumbers_mono (solve1 solve2 : Board → Rng → Option (Bool × Board × Rng))
    (h : ∀ b g res, solve1 b g = some res → solve2 b g = some res) (row col : Fin 9) :
    ∀ (nums : List Int) (board : Board) (g : Rng) (res : Bool × Board × Rng),
      tryNumbers solve1 row col nums board g = some res →
      tryNumbers solve2 row col nums board g = some res
  | [], _, _, _, h1 => h1
  | num :: rest, board, g, res, h1 => by
    by_cases hv : isValid board row col num = true
    · simp only [tryNumbers, hv, if_true] at h1 ⊢
      cases hs : solve1 (setCell board row col num) g with
      | none => simp [hs] at h1
      | some r =>
        obtain ⟨ok, b1, g1⟩ := r
        rw [hs] at h1
        rw [h _ _ _ hs]
        cases ok
        · exact tryNumbers_mono solve1 solve2 h row col rest _ _ res h1
        · exact h1
    · simp only [tryNumbers, hv] at h1 ⊢
      exact tryNumbers_mono solve1 solve2 h row col rest _ _ res h1

/-- A result obtained within some recursion depth is obtained within every larger one. -/
theorem SolveBoardAux_succ : ∀ (fuel : Nat) (board : Board) (g : Rng)
    (res : Bool × Board × Rng),
    SolveBoardAux fuel board g = some res → SolveBoardAux (fuel + 1) board g = some res
  | 0, _, _, _, h => by simp [SolveBoardAux] at h
  | fuel + 1, board, g, res, h => by
    cases hfind : findEmpty board with
    | none =>
      simp only [SolveBoardAux, hfind] at h ⊢
      exact h
    | some cell =>
      obtain ⟨row, col⟩ := cell
      simp only [SolveBoardAux, hfind] at h
      have := tryNumbers_mono (SolveBoardAux fuel) (SolveBoardAux (fuel + 1))
        (SolveBoardAux_succ fuel) row col _ _ _ res h
      rw [show SolveBoardAux (fuel + 1 + 1) board g =
        tryNumbers (SolveBoardAux (fuel + 1)) row col (shuffle digits g).1 board
          (shuffle digits g).2 by simp only [SolveBoardAux, hfind]]
      exact this

theorem SolveBoardAux_add (fuel : Nat) (board : Board) (g : Rng) (res : Bool × Board × Rng)
    (h : SolveBoardAux fuel board g = some res) :
    ∀ k, SolveBoardAux (fuel + k) board g = some res
  | 0 => h
  | k + 1 => SolveBoardAux_succ (fuel + k) board g res (SolveBoardAux_add fuel board g res h k)

/-- The loop of `SolveBoard` calls the solver only on boards with strictly fewer empty
cells than the board it started with. -/
theorem tryNumbers_guard (solve : Board → Rng → Option (Bool × Board × Rng)) (fuel : Nat)
    (hsolve : ∀ b g, countEmpty b < fuel → ∃ ok b' g', solve b g = some (ok, b', g') ∧
      (ok = true → IsCompletion b b') ∧
      (ok = false → b' = b ∧ ∀ full, ¬ IsCompletion b full))
    (row col : Fin 9) (board : Board) (h0 : board row col = 0)
    (hcount : countEmpty board ≤ fuel) :
    ∀ (nums : List Int) (g : Rng), (∀ n ∈ nums, 1 ≤ n ∧ n ≤ 9) →
      tryNumbers (fun b g1 => if countEmpty b < countEmpty board then solve b g1 else none)
        row col nums board g = tryNumbers solve row col nums board g
  | [], _, _ => rfl
  | num :: rest, g, hnums => by
    have hnum := hnums num (List.mem_cons_self _ _)
    have hrest : ∀ n ∈ rest, 1 ≤ n ∧ n ≤ 9 := fun n hn => hnums n (List.mem_cons_of_mem _ hn)
    by_cases hv : isValid board row col num = true
    · have hdec := countEmpty_setCell board row col num h0 (by omega)
      have hlt : countEmpty (setCell board row col num) < countEmpty board := by omega
      obtain ⟨ok, b1, g1, he, _, hF⟩ := hsolve (setCell board row col num) g (by omega)
      simp only [tryNumbers, hv, if_true, hlt, he]
      cases ok
      · obtain ⟨hb1, _⟩ := hF rfl
        subst hb1
        simp only [setCell_restore board row col num h0]
        exact tryNumbers_guard solve fuel hsolve row col board h0 hcount rest g1 hrest
      · rfl
    · simp only [tryNumbers, hv]
      exact tryNumbers_guard solve fuel hsolve row col board h0 hcount rest g hrest

/-- Claim C14: whatever the generator state, `SolveBoard` returns true exactly when the
board has a valid full completion, that is when its empty cells can be filled with digits
of `1..9` such that no filled-in digit equals another cell of its row, column or 3x3 box;
and when it returns true the board it leaves is such a completion: no cell is empty and
every cell that was non-empty is unchanged.  This holds for every board, with entries in
`0..9` or not. -/
theorem SolveBoard_sound_complete (board : Board) (g : Rng) :
    ∃ (ok : Bool) (b' : Board) (g' : Rng), SolveBoard board g = some (ok, b', g') ∧
      (ok = true ↔ ∃ full : Board, IsCompletion board full) ∧
      (ok = true → IsCompletion board b' ∧ (∀ r c, b' r c ≠ 0) ∧
        (∀ r c, board r c ≠ 0 → b' r c = board r c) ∧
        (∀ r c, board r c = 0 → 1 ≤ b' r c ∧ b' r c ≤ 9 ∧
          ∀ r' c', (r', c') ≠ (r, c) → SameUnit r c r' c' → b' r' c' ≠ b' r c)) := by
  obtain ⟨ok, b', g', he, hT, hF⟩ := SolveBoard_spec board g
  refine ⟨ok, b', g', he, ?_, ?_⟩
  · constructor
    · intro hok
      exact ⟨b', hT hok⟩
    · rintro ⟨full, hfull⟩
      cases ok
      · exact absurd hfull ((hF rfl).2 full)
      · rfl
  · intro hok
    have hc := hT hok
    refine ⟨hc, ?_, fun r c => (hc r c).1, fun r c => (hc r c).2⟩
    intro r c
    by_cases hz : board r c = 0
    · have := (hc r c).2 hz
      omega
    · rw [(hc r c).1 hz]
      exact hz

/-- Claim C15: `SolveBoard` terminates on every board and in every generator state.  A
board has at most 81 empty cells; the call returns within a recursion depth of the number
of empty cells of its input (one level more than that for the call itself), with the
result any larger depth gives, that of `SolveBoard` included; and every recursive call that
the loop of a call makes is on a board with strictly fewer empty cells: guarding the
recursive calls by that condition does not change the result. -/
theorem SolveBoard_terminates (board : Board) (g : Rng) :
    countEmpty board ≤ 81 ∧
    (∃ res, SolveBoardAux (countEmpty board + 1) board g = some res ∧
      SolveBoard board g = some res ∧
      ∀ fuel, countEmpty board < fuel → SolveBoardAux fuel board g = some res) ∧
    (∀ (fuel : Nat) (row col : Fin 9), countEmpty board ≤ fuel →
      findEmpty board = some (row, col) →
      SolveBoardAux (fuel + 1) board g =
        tryNumbers
          (fun b g1 => if countEmpty b < countEmpty board then SolveBoardAux fuel b g1 else none)
          row col (shuffle digits g).1 board (shuffle digits g).2) := by
  have hle := countEmpty_le board
  refine ⟨hle, ?_, ?_⟩
  · obtain ⟨ok, b', g', he, _, _⟩ :=
      SolveBoardAux_spec (countEmpty board + 1) board g (Nat.lt_succ_self _)
    have hadd := SolveBoardAux_add (countEmpty board + 1) board g (ok, b', g') he
    refine ⟨(ok, b', g'), he, ?_, ?_⟩
    · have := hadd (82 - (countEmpty board + 1))
      rw [show countEmpty board + 1 + (82 - (countEmpty board + 1)) = 82 by omega] at this
      exact this
    · intro fuel hfuel
      have := hadd (fuel - (countEmpty board + 1))
      rw [show countEmpty board + 1 + (fuel - (countEmpty board + 1)) = fuel by omega] at this
      exact this
  · intro fuel row col hfuel hfind
    rw [tryNumbers_guard (SolveBoardAux fuel) fuel (SolveBoardAux_spec fuel) row col board
      (findEmpty_some hfind) hfuel (shuffle digits g).1 (shuffle digits g).2
      (fun n hn => (mem_shuffle_digits g n).mp hn)]
    simp only [SolveBoardAux, hfind]

/-! ## Exact carving -/

theorem countEmpty_blank (b : Board) (r c : Fin 9) (h : b r c ≠ 0) :
    countEmpty (setCell b r c 0) = countEmpty b + 1 := by
  have hback : setCell (setCell b r c 0) r c (b r c) = b := by
    funext r' c'
    by_cases h' : r' = r ∧ c' = c
    · simp [setCell, h']
    · simp [setCell, h']
  have := countEmpty_setCell (setCell b r c 0) r c (b r c) (by simp [setCell]) h
  rw [hback] at this
  exact this.symm

/-- On a grid that is a solved grid with cells blanked, a round of the removal loop keeps
its removal. -/
theorem removeStep_kept {full : Board} (hfull : SolvedGrid full) (s : SudokuBoard)
    (cell : Fin 9 × Fin 9) (hsub : ∀ r c, s.mBoard r c = 0 ∨ s.mBoard r c = full r c) :
    ∃ g', removeStep s cell = some
      { mBoard := setCell s.mBoard cell.1 cell.2 0,
        mOriginalCells := setFlag s.mOriginalCells cell.1 cell.2 false, mRng := g' } := by
  have hsub' : ∀ r c, setCell s.mBoard cell.1 cell.2 0 r c = 0 ∨
      setCell s.mBoard cell.1 cell.2 0 r c = full r c := by
    intro r c
    by_cases h : r = cell.1 ∧ c = cell.2
    · simp [setCell, h]
    · simpa [setCell, h] using hsub r c
  obtain ⟨b', g', he, _⟩ := SolveBoard_of_sub hfull hsub' s.mRng
  exact ⟨g', by simp only [removeStep, he]⟩

/-- The removal loop over distinct, still filled cells blanks exactly these cells and
clears exactly their fixed flags. -/
theorem removeLoop_exact {full : Board} (hfull : SolvedGrid full) :
    ∀ (cells : List (Fin 9 × Fin 9)) (s : SudokuBoard), cells.Nodup →
      (∀ r c, s.mBoard r c = 0 ∨ s.mBoard r c = full r c) →
      (∀ p ∈ cells, s.mBoard p.1 p.2 ≠ 0) →
      ∃ s', cells.foldlM removeStep s = some s' ∧
        (∀ r c, s'.mBoard r c = if (r, c) ∈ cells then 0 else s.mBoard r c) ∧
        (∀ r c, s'.mOriginalCells r c =
          if (r, c) ∈ cells then false else s.mOriginalCells r c) ∧
        countEmpty s'.mBoard = countEmpty s.mBoard + cells.length
  | [], s, _, _, _ => ⟨s, rfl, fun _ _ => by simp, fun _ _ => by simp, by simp⟩
  | cell :: rest, s, hnd, hsub, hfilled => by
    have hnd' := List.nodup_cons.mp hnd
    obtain ⟨g', he1⟩ := removeStep_kept hfull s cell hsub
    have hsub1 : ∀ r c, setCell s.mBoard cell.1 cell.2 0 r c = 0 ∨
        setCell s.mBoard cell.1 cell.2 0 r c = full r c := by
      intro r c
      by_cases h : r = cell.1 ∧ c = cell.2
      · simp [setCell, h]
      · simpa [setCell, h] using hsub r c
    have hfilled1 : ∀ p ∈ rest, setCell s.mBoard cell.1 cell.2 0 p.1 p.2 ≠ 0 := by
      intro p hp
      have hne : ¬ (p.1 = cell.1 ∧ p.2 = cell.2) := by
        rintro ⟨e1, e2⟩
        exact hnd'.1 ((Prod.ext e1 e2 : p = cell) ▸ hp)
      simpa [setCell, hne] using hfilled p (List.mem_cons_of_mem _ hp)
    obtain ⟨s2, he2, hboard, hmask, hcount⟩ := removeLoop_exact hfull rest
      { mBoard := setCell s.mBoard cell.1 cell.2 0,
        mOriginalCells := setFlag s.mOriginalCells cell.1 cell.2 false, mRng := g' }
      hnd'.2 hsub1 hfilled1
    refine ⟨s2, ?_, ?_, ?_, ?_⟩
    · rw [List.foldlM_cons, he1]
      exact he2
    · intro r c
      rw [hboard r c]
      by_cases hrest : (r, c) ∈ rest
      · simp [hrest]
      · by_cases hcell : r = cell.1 ∧ c = cell.2
        · have : (r, c) = cell := Prod.ext hcell.1 hcell.2
          simp [setCell, hcell, this]
        · have : (r, c) ≠ cell := fun e => hcell ⟨congrArg Prod.fst e, congrArg Prod.snd e⟩
          simp [setCell, hcell, hrest, this]
    · intro r c
      rw [hmask r c]
      by_cases hrest : (r, c) ∈ rest
      · simp [hrest]
      · by_cases hcell : r = cell.1 ∧ c = cell.2
        · have : (r, c) = cell := Prod.ext hcell.1 hcell.2
          simp [setFlag, hcell, this]
        · have : (r, c) ≠ cell := fun e => hcell ⟨congrArg Prod.fst e, congrArg Prod.snd e⟩
          simp [setFlag, hcell, hrest, this]
    · rw [hcount]
      show countEmpty (setCell s.mBoard cell.1 cell.2 0) + rest.length = _
      rw [countEmpty_blank _ _ _ (hfilled cell (List.mem_cons_self _ _))]
      simp only [List.length_cons]
      omega

theorem cellsToRemove_le (difficulty : Int) : cellsToRemove difficulty ≤ 60 := by
  unfold cellsToRemove
  split
  · omega
  · split
    · omega
    · split <;> omega

/-- The cells `NewGame` blanks are the first `cellsToRemove` cells of the shuffled list
of coordinates, and only they lose their fixed flag. -/
theorem NewGame_exact (s : SudokuBoard) (difficulty : Int) :
    ∃ (s0 s' : SudokuBoard),
      GenerateCompleteSolution
        { s with mBoard := fun _ _ => 0, mOriginalCells := fun _ _ => false } = some s0 ∧
      NewGame s difficulty = some s' ∧ SolvedGrid s0.mBoard ∧
      ((shuffle allCells s0.mRng).1.take (cellsToRemove difficulty)).length =
        cellsToRemove difficulty ∧
      ((shuffle allCells s0.mRng).1.take (cellsToRemove difficulty)).Nodup ∧
      (∀ r c, s'.mBoard r c =
        if (r, c) ∈ (shuffle allCells s0.mRng).1.take (cellsToRemove difficulty) then 0
        else s0.mBoard r c) ∧
      (∀ r c, s'.mOriginalCells r c =
        if (r, c) ∈ (shuffle allCells s0.mRng).1.take (cellsToRemove difficulty) then false
        else true) ∧
      countEmpty s'.mBoard = cellsToRemove difficulty := by
  obtain ⟨full, g1, _, hgen, hfull⟩ := GenerateCompleteSolution_spec
    { s with mBoard := fun _ _ => 0, mOriginalCells := fun _ _ => false }
  have hnz : ∀ r c, full r c ≠ 0 := hfull.1
  have hperm := shuffle_perm allCells g1
  have hlen : ((shuffle allCells g1).1.take (cellsToRemove difficulty)).length =
      cellsToRemove difficulty := by
    have h81 : allCells.length = 81 := by decide
    have := cellsToRemove_le difficulty
    rw [List.length_take, hperm.length_eq, h81]
    omega
  have hnd : ((shuffle allCells g1).1.take (cellsToRemove difficulty)).Nodup :=
    List.Nodup.sublist (List.take_sublist _ _) (hperm.nodup_iff.mpr nodup_allCells)
  obtain ⟨s', he, hboard, hmask, hcount⟩ := removeLoop_exact hfull
    ((shuffle allCells g1).1.take (cellsToRemove difficulty))
    { mBoard := full, mOriginalCells := fun _ _ => true, mRng := (shuffle allCells g1).2 }
    hnd (fun _ _ => Or.inr rfl) (fun p _ => hnz p.1 p.2)
  refine ⟨_, s', hgen, ?_, hfull, hlen, hnd, hboard, hmask, ?_⟩
  · simp only [NewGame, hgen, RemoveCells]
    exact he
  · rw [hcount, hlen]
    show countEmpty full + _ = _
    rw [countEmpty_eq_zero hnz]
    omega

theorem countFixed_add (mask : Mask) :
    countFixed mask + allCells.countP (fun p => !mask p.1 p.2) = 81 := by
  have h81 : allCells.length = 81 := by decide
  have := List.length_eq_countP_add_countP (p := fun p : Fin 9 × Fin 9 => mask p.1 p.2) allCells
  have hsame : allCells.countP (fun p => !mask p.1 p.2) =
      allCells.countP (fun a => decide ¬ (mask a.1 a.2 = true)) := by
    apply List.countP_congr
    intro p _
    simp
  unfold countFixed
  rw [hsame]
  omega

/-- After `NewGame` the fixed cells are the 81 cells less the removed ones. -/
theorem NewGame_countFixed (s : SudokuBoard) (difficulty : Int) :
    ∃ s', NewGame s difficulty = some s' ∧
      countFixed s'.mOriginalCells + cellsToRemove difficulty = 81 ∧
      countEmpty s'.mBoard = cellsToRemove difficulty := by
  obtain ⟨s0, s', _, he, hfull, _, _, hboard, hmask, hcount⟩ := NewGame_exact s difficulty
  refine ⟨s', he, ?_, hcount⟩
  have hsame : allCells.countP (fun p => !s'.mOriginalCells p.1 p.2) = countEmpty s'.mBoard := by
    unfold countEmpty
    apply List.countP_congr
    intro p _
    have hb := hboard p.1 p.2
    have hm := hmask p.1 p.2
    have hnz := hfull.1 p.1 p.2
    by_cases hin : (p.1, p.2) ∈ (shuffle allCells s0.mRng).1.take (cellsToRemove difficulty)
    · rw [if_pos hin] at hb hm
      simp [hb, hm]
    · rw [if_neg hin] at hb hm
      simp [hb, hm, hnz]
  have := countFixed_add s'.mOriginalCells
  omega

/-! ## Reachable engine states -/

/-- In a reachable state every cell holds a value of `0..9` and no fixed cell is empty. -/
theorem Reachable.inv {s : SudokuBoard} (h : Reachable s) :
    (∀ r c, 0 ≤ s.mBoard r c ∧ s.mBoard r c ≤ 9) ∧
    (∀ r c, s.mOriginalCells r c = true → s.mBoard r c ≠ 0) := by
  induction h with
  | construct seed =>
    constructor
    · intro r c
      show (0 : Int) ≤ 0 ∧ (0 : Int) ≤ 9
      omega
    · intro r c hm
      have hm' : false = true := hm
      exact absurd hm' (by decide)
  | newGame difficulty _ hnew _ =>
    obtain ⟨s2, full, he, hfull, hsub, hmask, _⟩ := NewGame_spec _ difficulty
    rw [hnew] at he
    have hs := Option.some.inj he
    subst hs
    constructor
    · intro r c
      rcases hsub r c with e | e
      · rw [e]
        exact ⟨le_refl _, by decide⟩
      · rw [e]
        have := hfull.range r c
        omega
    · intro r c hm h0
      have := (hmask r c).mpr h0
      rw [hm] at this
      exact absurd this (by decide)
  | @setCell s0 row col value _ ih =>
    by_cases hrange : 0 ≤ row ∧ row < 9 ∧ 0 ≤ col ∧ col < 9
    · obtain ⟨r0, rfl⟩ := exists_index row hrange.1 hrange.2.1
      obtain ⟨c0, rfl⟩ := exists_index col hrange.2.2.1 hrange.2.2.2
      rw [SetCell_coe]
      by_cases hcond : 1 ≤ value ∧ value ≤ 9 ∧ s0.mOriginalCells r0 c0 = false
      · rw [if_pos hcond]
        constructor
        · intro r c
          by_cases hrc : r = r0 ∧ c = c0
          · simp only [Sudoku.setCell, hrc, and_self, if_true]
            omega
          · simp only [Sudoku.setCell, hrc, if_false]
            exact ih.1 r c
        · intro r c hm
          by_cases hrc : r = r0 ∧ c = c0
          · simp only [Sudoku.setCell, hrc, and_self, if_true]
            omega
          · simp only [Sudoku.setCell, hrc, if_false]
            exact ih.2 r c hm
      · rw [if_neg hcond]
        exact ih
    · rw [SetCell_out_of_range _ row col value hrange]
      exact ih
  | @clearCell s0 row col _ ih =>
    by_cases hrange : 0 ≤ row ∧ row < 9 ∧ 0 ≤ col ∧ col < 9
    · obtain ⟨r0, rfl⟩ := exists_index row hrange.1 hrange.2.1
      obtain ⟨c0, rfl⟩ := exists_index col hrange.2.2.1 hrange.2.2.2
      rw [ClearCell_coe]
      by_cases hcond : s0.mOriginalCells r0 c0 = false
      · rw [if_pos hcond]
        constructor
        · intro r c
          by_cases hrc : r = r0 ∧ c = c0
          · simp only [Sudoku.setCell, hrc, and_self, if_true]
            omega
          · simp only [Sudoku.setCell, hrc, if_false]
            exact ih.1 r c
        · intro r c hm
          by_cases hrc : r = r0 ∧ c = c0
          · rw [hrc.1, hrc.2, hcond] at hm
            exact absurd hm (by decide)
          · simp only [Sudoku.setCell, hrc, if_false]
            exact ih.2 r c hm
      · rw [if_neg hcond]
        exact ih
    · rw [ClearCell_out_of_range _ row col hrange]
      exact ih
  | @getHint s0 s1 out out1 ret _ hhint ih =>
    by_cases hfull : ∀ r c, s0.mBoard r c ≠ 0
    · rw [GetHint_full s0 out hfull] at hhint
      have e : s0 = s1 := congrArg (fun t => t.2.2) (Option.some.inj hhint)
      rw [← e]
      exact ih
    · obtain ⟨r, c, ok, b', g', _, _, _, hget⟩ := GetHint_some_empty s0 out hfull
      rw [hget] at hhint
      have e : { s0 with mRng := g' } = s1 := congrArg (fun t => t.2.2) (Option.some.inj hhint)
      rw [← e]
      exact ih

/-- A hint `GetHint` reports in a state without an empty fixed cell names an empty,
non-fixed cell and a digit of `1..9` that passes the three scans; the call leaves the
grid and the mask as they were. -/
theorem GetHint_true (s : SudokuBoard) (out out1 : HintOut) (s1 : SudokuBoard)
    (hfixed : ∀ r c, s.mOriginalCells r c = true → s.mBoard r c ≠ 0)
    (hhint : GetHint s out = some (true, out1, s1)) :
    ∃ r c : Fin 9, out1.row = (r.val : Int) ∧ out1.col = (c.val : Int) ∧
      s1.mBoard = s.mBoard ∧ s1.mOriginalCells = s.mOriginalCells ∧
      s.mBoard r c = 0 ∧ s.mOriginalCells r c = false ∧
      1 ≤ out1.value ∧ out1.value ≤ 9 ∧ isValid s.mBoard r c out1.value = true := by
  by_cases hfull : ∀ r c, s.mBoard r c ≠ 0
  · rw [GetHint_full s out hfull] at hhint
    have e : false = true := congrArg (fun t => t.1) (Option.some.inj hhint)
    exact absurd e (by decide)
  · obtain ⟨r, c, ok, b', g', h0, _, hT, hget⟩ := GetHint_some_empty s out hfull
    rw [hget] at hhint
    have hinj := Option.some.inj hhint
    have hok : ok = true := congrArg (fun t => t.1) hinj
    subst hok
    have hout : ({ row := (r.val : Int), col := (c.val : Int), value := b' r c } : HintOut)
        = out1 := congrArg (fun t => t.2.1) hinj
    have hs1 : { s with mRng := g' } = s1 := congrArg (fun t => t.2.2) hinj
    have hc := hT rfl
    have hdigit := (hc r c).2 h0
    have hmask : s.mOriginalCells r c = false := by
      cases hm : s.mOriginalCells r c
      · rfl
      · exact absurd h0 (hfixed r c hm)
    refine ⟨r, c, ?_, ?_, ?_, ?_, h0, hmask, ?_, ?_, ?_⟩
    · rw [← hout]
    · rw [← hout]
    · rw [← hs1]
    · rw [← hs1]
    · rw [← hout]
      exact hdigit.1
    · rw [← hout]
      exact hdigit.2.1
    · rw [← hout]
      exact hc.isValid h0

theorem IsNumberValid_unit (s : SudokuBoard) (r c : Fin 9) :
    IsNumberValid s (r.val : Int) (c.val : Int) = true ↔
      s.mBoard r c = 0 ∨
        ∀ r' c', (r', c') ≠ (r, c) → SameUnit r c r' c' → s.mBoard r' c' ≠ s.mBoard r c := by
  rw [IsNumberValid_coe]
  apply or_congr Iff.rfl
  constructor
  · rintro ⟨hA, hB, hC⟩ r' c' hne hunit
    rcases hunit with e | e | ⟨e1, e2⟩
    · subst e
      exact hA c' (fun e => hne (by rw [e]))
    · subst e
      exact hB r' (fun e => hne (by rw [e]))
    · exact hC r' c' e1.symm e2.symm hne
  · intro h
    refine ⟨fun c' hne => h r c' (fun e => hne (congrArg Prod.snd e)) (Or.inl rfl),
      fun r' hne => h r' c (fun e => hne (congrArg Prod.fst e)) (Or.inr (Or.inl rfl)),
      fun r' c' e1 e2 hne => h r' c' hne (Or.inr (Or.inr ⟨e1.symm, e2.symm⟩))⟩

/-- What `IsValidMove` returning true means for a call with integer arguments. -/
theorem IsValidMove_true {s : SudokuBoard} {row col value : Int}
    (h : IsValidMove s row col value = true) :
    ∃ r c : Fin 9, (r.val : Int) = row ∧ (c.val : Int) = col ∧ 1 ≤ value ∧ value ≤ 9 ∧
      s.mOriginalCells r c = false ∧ isValid s.mBoard r c value = true := by
  by_cases hrange : 0 ≤ row ∧ row < 9 ∧ 0 ≤ col ∧ col < 9
  · obtain ⟨r, rfl⟩ := exists_index row hrange.1 hrange.2.1
    obtain ⟨c, rfl⟩ := exists_index col hrange.2.2.1 hrange.2.2.2
    rw [IsValidMove_coe] at h
    simp only [Bool.and_eq_true, decide_eq_true_eq, Bool.not_eq_true'] at h
    exact ⟨r, c, rfl, rfl, h.1.1.1, h.1.1.2, h.1.2, h.2⟩
  · rw [IsValidMove_out_of_range s row col value hrange] at h
    exact absurd h (by decide)

/-- On the empty grid of a freshly constructed engine `GetHint` returns true. -/
theorem GetHint_new (seed : Rng) (out : HintOut) :
    ∃ out1 s1, GetHint (SudokuBoard.new seed) out = some (true, out1, s1) := by
  have hne : ¬ ∀ r c, (SudokuBoard.new seed).mBoard r c ≠ 0 := fun h => h 0 0 rfl
  obtain ⟨r, c, ok, b', g', _, he, _, hget⟩ := GetHint_some_empty (SudokuBoard.new seed) out hne
  obtain ⟨b2, g2, he2, _⟩ := SolveBoard_of_sub standardSolution_solved
    (b := (SudokuBoard.new seed).mBoard) (fun _ _ => Or.inl rfl) (SudokuBoard.new seed).mRng.advance
  rw [he] at he2
  have hok : ok = true := congrArg (fun t => t.1) (Option.some.inj he2)
  subst hok
  exact ⟨_, _, hget⟩

/-! ## The properties of generation, reachable states and accepted moves -/

/-- Claim C16: for every integer difficulty and every generator state, `NewGame` returns
and leaves exactly the target number of empty cells: 40 for difficulty 1, 50 for 2, 60 for
3 and 50 for every other value.  The loop runs over exactly the first `target` cells of the
shuffled list of coordinates, which are distinct, and every one of them ends up blank (no
removal is rolled back), every other cell keeping the digit of the generated solution,
which is a completion of the carved grid. -/
theorem NewGame_exact_count (s : SudokuBoard) (d : Int) :
    ∃ (s0 s' : SudokuBoard),
      GenerateCompleteSolution
        { s with mBoard := fun _ _ => 0, mOriginalCells := fun _ _ => false } = some s0 ∧
      NewGame s d = some s' ∧
      countEmpty s'.mBoard = (if d = 1 then 40 else if d = 2 then 50 else if d = 3 then 60
        else 50) ∧
      cellsToRemove d = (if d = 1 then 40 else if d = 2 then 50 else if d = 3 then 60
        else 50) ∧
      ((shuffle allCells s0.mRng).1.take (cellsToRemove d)).length = cellsToRemove d ∧
      ((shuffle allCells s0.mRng).1.take (cellsToRemove d)).Nodup ∧
      (∀ r c, s'.mBoard r c =
        if (r, c) ∈ (shuffle allCells s0.mRng).1.take (cellsToRemove d) then 0
        else s0.mBoard r c) ∧
      IsSolved s0.mBoard = true ∧ IsCompletion s'.mBoard s0.mBoard := by
  obtain ⟨s0, s', hgen, he, hfull, hlen, hnd, hboard, _, hcount⟩ := NewGame_exact s d
  have htarget : cellsToRemove d =
      (if d = 1 then 40 else if d = 2 then 50 else if d = 3 then 60 else 50) := rfl
  refine ⟨s0, s', hgen, he, ?_, htarget, hlen, hnd, hboard, (IsSolved_iff _).mpr hfull, ?_⟩
  · rw [hcount, htarget]
  · apply hfull.isCompletion
    intro r c
    rw [hboard r c]
    by_cases hin : (r, c) ∈ (shuffle allCells s0.mRng).1.take (cellsToRemove d)
    · exact Or.inl (if_pos hin)
    · exact Or.inr (if_neg hin)

/-- Claim C12: whatever the two engine states and generator states before, `NewGame(1)`
leaves strictly more fixed cells than `NewGame(3)`: 41 against 21. -/
theorem NewGame_easy_more_fixed (s1 s3 : SudokuBoard) :
    ∃ easy hard : SudokuBoard, NewGame s1 1 = some easy ∧ NewGame s3 3 = some hard ∧
      countFixed hard.mOriginalCells < countFixed easy.mOriginalCells ∧
      countFixed easy.mOriginalCells = 41 ∧ countFixed hard.mOriginalCells = 21 := by
  obtain ⟨easy, he, hce, _⟩ := NewGame_countFixed s1 1
  obtain ⟨hard, hh, hch, _⟩ := NewGame_countFixed s3 3
  have h1 : cellsToRemove 1 = 40 := rfl
  have h3 : cellsToRemove 3 = 60 := rfl
  rw [h1] at hce
  rw [h3] at hch
  exact ⟨easy, hard, he, hh, by omega, by omega, by omega⟩

/-- Claim C13: in every engine state reachable from construction by `NewGame`, `SetCell`,
`ClearCell` and `GetHint` calls with arbitrary arguments and generator states, every cell
of the grid holds a value of `0..9`. -/
theorem Reachable_cells_in_range (s : SudokuBoard) (h : Reachable s) :
    (∀ r c : Fin 9, 0 ≤ s.mBoard r c ∧ s.mBoard r c ≤ 9) ∧
    (∀ row col : Int, 0 ≤ GetCell s row col ∧ GetCell s row col ≤ 9) := by
  have hinv := h.inv.1
  refine ⟨hinv, ?_⟩
  intro row col
  by_cases hrange : 0 ≤ row ∧ row < 9 ∧ 0 ≤ col ∧ col < 9
  · obtain ⟨r, rfl⟩ := exists_index row hrange.1 hrange.2.1
    obtain ⟨c, rfl⟩ := exists_index col hrange.2.2.1 hrange.2.2.2
    rw [GetCell_coe]
    exact hinv r c
  · unfold GetCell
    rw [dif_neg (by omega)]
    omega

/-- Claim C13 at the state reached from construction by `ClearCell(3, 3)`, then
`SetCell(0, 0, 5)`. -/
theorem Reachable_cells_in_range_witness :
    Reachable (SetCell (ClearCell (SudokuBoard.new sampleRng) 3 3) 0 0 5) ∧
    (∀ r c : Fin 9,
      0 ≤ (SetCell (ClearCell (SudokuBoard.new sampleRng) 3 3) 0 0 5).mBoard r c ∧
      (SetCell (ClearCell (SudokuBoard.new sampleRng) 3 3) 0 0 5).mBoard r c ≤ 9) :=
  ⟨Reachable.setCell 0 0 5 (Reachable.clearCell 3 3 (Reachable.construct sampleRng)),
    (Reachable_cells_in_range _
      (Reachable.setCell 0 0 5 (Reachable.clearCell 3 3 (Reachable.construct sampleRng)))).1⟩

/-- Claim C17: in every reachable engine state every fixed cell is non-empty, and whenever
`GetHint` returns true with (row, col, value), the hint is a legal move on the grid, before
and after the call: `IsValidMove(row, col, value)` is true, the cell is not fixed, and the
`SetCell(row, col, value)` that applies the hint takes effect. -/
theorem GetHint_legal (s : SudokuBoard) (h : Reachable s) :
    (∀ r c, s.mOriginalCells r c = true → s.mBoard r c ≠ 0) ∧
    (∀ (out out1 : HintOut) (s1 : SudokuBoard), GetHint s out = some (true, out1, s1) →
      IsValidMove s out1.row out1.col out1.value = true ∧
      IsValidMove s1 out1.row out1.col out1.value = true ∧
      IsOriginalCell s1 out1.row out1.col = false ∧
      GetCell s1 out1.row out1.col = 0 ∧
      GetCell (SetCell s1 out1.row out1.col out1.value) out1.row out1.col = out1.value) := by
  have hfixed := h.inv.2
  refine ⟨hfixed, ?_⟩
  intro out out1 s1 hhint
  obtain ⟨r, c, hrow, hcol, hb, hm, h0, hmask, h1, h9, hvalid⟩ :=
    GetHint_true s out out1 s1 hfixed hhint
  have hmask1 : s1.mOriginalCells r c = false := by rw [hm]; exact hmask
  rw [hrow, hcol]
  refine ⟨?_, ?_, ?_, ?_, ?_⟩
  · rw [IsValidMove_coe, hmask, hvalid]
    simp [h1, h9]
  · rw [IsValidMove_coe, hmask1, hb, hvalid]
    simp [h1, h9]
  · rw [IsOriginalCell_coe]
    exact hmask1
  · rw [GetCell_coe, hb]
    exact h0
  · rw [SetCell_coe, if_pos ⟨h1, h9, hmask1⟩, GetCell_coe]
    exact setCell_same _ _ _ _

/-- Claim C17 at the freshly constructed engine, where `GetHint` returns true. -/
theorem GetHint_legal_witness :
    Reachable (SudokuBoard.new sampleRng) ∧
    ∃ (out1 : HintOut) (s1 : SudokuBoard),
      GetHint (SudokuBoard.new sampleRng) ⟨0, 0, 0⟩ = some (true, out1, s1) ∧
      IsValidMove s1 out1.row out1.col out1.value = true ∧
      GetCell (SetCell s1 out1.row out1.col out1.value) out1.row out1.col = out1.value := by
  obtain ⟨out1, s1, hhint⟩ := GetHint_new sampleRng ⟨0, 0, 0⟩
  have hlegal := (GetHint_legal _ (Reachable.construct sampleRng)).2 ⟨0, 0, 0⟩ out1 s1 hhint
  exact ⟨Reachable.construct sampleRng, out1, s1, hhint, hlegal.2.1, hlegal.2.2.2.2⟩

/-- Claim C18: when `IsValidMove(row, col, value)` is true, after `SetCell(row, col, value)`
`GetCell(row, col)` is `value`, `IsNumberValid(row, col)` is true, and every cell in range
for which `IsNumberValid` was true before the call still has it true. -/
theorem SetCell_valid_move (s : SudokuBoard) (row col value : Int)
    (h : IsValidMove s row col value = true) :
    GetCell (SetCell s row col value) row col = value ∧
    IsNumberValid (SetCell s row col value) row col = true ∧
    ∀ r c : Fin 9, IsNumberValid s (r.val : Int) (c.val : Int) = true →
      IsNumberValid (SetCell s row col value) (r.val : Int) (c.val : Int) = true := by
  obtain ⟨r0, c0, rfl, rfl, h1, h9, hmask, hvalid⟩ := IsValidMove_true h
  have hv := (isValid_iff s.mBoard r0 c0 value).mp hvalid
  rw [SetCell_coe, if_pos ⟨h1, h9, hmask⟩]
  have hkeep : ∀ r c : Fin 9, (r, c) ≠ (r0, c0) →
      setCell s.mBoard r0 c0 value r c = s.mBoard r c := by
    intro r c hne
    have : ¬ (r = r0 ∧ c = c0) := fun e => hne (by rw [e.1, e.2])
    simp [setCell, this]
  refine ⟨?_, ?_, ?_⟩
  · rw [GetCell_coe]
    exact setCell_same _ _ _ _
  · rw [IsNumberValid_unit]
    right
    intro r' c' hne hunit
    show setCell s.mBoard r0 c0 value r' c' ≠ setCell s.mBoard r0 c0 value r0 c0
    rw [setCell_same, hkeep r' c' hne]
    exact hv r' c' hunit
  · intro r c hbefore
    rw [IsNumberValid_unit] at hbefore ⊢
    show setCell s.mBoard r0 c0 value r c = 0 ∨
      ∀ r' c', (r', c') ≠ (r, c) → SameUnit r c r' c' →
        setCell s.mBoard r0 c0 value r' c' ≠ setCell s.mBoard r0 c0 value r c
    by_cases hrc : (r, c) = (r0, c0)
    · have e1 : r = r0 := congrArg Prod.fst hrc
      have e2 : c = c0 := congrArg Prod.snd hrc
      subst e1 e2
      right
      intro r' c' hne hunit
      rw [setCell_same, hkeep r' c' hne]
      exact hv r' c' hunit
    · rw [hkeep r c hrc]
      rcases hbefore with hz | hothers
      · exact Or.inl hz
      · right
        intro r' c' hne hunit
        by_cases hrc' : (r', c') = (r0, c0)
        · have e1 : r' = r0 := congrArg Prod.fst hrc'
          have e2 : c' = c0 := congrArg Prod.snd hrc'
          subst e1 e2
          rw [setCell_same]
          exact fun e => hv r c hunit.symm e.symm
        · rw [hkeep r' c' hrc']
          exact hothers r' c' hne hunit

/-- Claim C18 at the grid of `singleFive` for the move of 7 into cell (0,1). -/
theorem SetCell_valid_move_witness :
    IsValidMove singleFive 0 1 7 = true ∧
    GetCell (SetCell singleFive 0 1 7) 0 1 = 7 ∧
    IsNumberValid (SetCell singleFive 0 1 7) 0 1 = true :=
  ⟨by decide, (SetCell_valid_move singleFive 0 1 7 (by decide)).1,
    (SetCell_valid_move singleFive 0 1 7 (by decide)).2.1⟩

end Sudoku
